import Mathlib

/-!
Verification of the spine-park conversion pipeline (`convert_to_bids.py`,
`aggregate_chunks.py`) against its natural-language specification.

Strings are modelled as `List Char`; Python string primitives used by the
source (`in`, `split`/`rsplit` with no maxsplit, `replace`, `endswith`,
f-string concatenation) are given executable shallow embeddings below,
together with the lemmas needed to reason about them.  Python `rsplit(sep)`
with no maxsplit returns the same list as `split(sep)`, so both are modelled
by `splitOnL`.
-/

namespace SpinePark

/-- Shorthand: the character list of a string literal. -/
def str (s : String) : List Char := s.data

/-- Boolean prefix test on character lists (`l` starts with `p`). -/
def isPre : List Char → List Char → Bool
  | [], _ => true
  | _ :: _, [] => false
  | a :: as, b :: bs => a == b && isPre as bs

theorem isPre_iff (p s : List Char) : isPre p s = true ↔ ∃ t, s = p ++ t := by
  induction p generalizing s with
  | nil => simp [isPre]
  | cons a as ih =>
    cases s with
    | nil =>
      simp only [isPre, List.cons_append]
      constructor
      · intro h; cases h
      · rintro ⟨t, ht⟩; cases ht
    | cons b bs =>
      simp only [isPre, Bool.and_eq_true, beq_iff_eq, ih, List.cons_append]
      constructor
      · rintro ⟨rfl, t, rfl⟩; exact ⟨t, rfl⟩
      · rintro ⟨t, ht⟩
        injection ht with h1 h2
        exact ⟨h1.symm, t, h2⟩

/-- Leftmost occurrence of `sep` in `s`: returns the part strictly before the
occurrence and the part strictly after it.  `none` when `sep` does not occur. -/
def firstSplit (sep : List Char) : List Char → Option (List Char × List Char)
  | [] => if isPre sep [] then some ([], []) else none
  | c :: rest =>
    if isPre sep (c :: rest) then some ([], (c :: rest).drop sep.length)
    else (firstSplit sep rest).map (fun p => (c :: p.1, p.2))

/-- Boolean substring-occurrence test, modelling Python's `sub in s`. -/
def occursB (sep s : List Char) : Bool := (firstSplit sep s).isSome

theorem firstSplit_decomp {sep s b a : List Char} (hsep : sep ≠ [])
    (h : firstSplit sep s = some (b, a)) : s = b ++ sep ++ a := by
  induction s generalizing b a with
  | nil =>
    obtain ⟨s0, ss, rfl⟩ := List.exists_cons_of_ne_nil hsep
    simp [firstSplit, isPre] at h
  | cons c rest ih =>
    simp only [firstSplit] at h
    by_cases hp : isPre sep (c :: rest) = true
    · rw [if_pos hp] at h
      obtain ⟨t, ht⟩ := (isPre_iff sep (c :: rest)).mp hp
      injection h with h1
      injection h1 with hb ha
      subst hb
      subst ha
      rw [ht]
      simp [List.drop_left]
    · rw [if_neg hp] at h
      cases hfs : firstSplit sep rest with
      | none => rw [hfs] at h; cases h
      | some p =>
        rw [hfs] at h
        simp only [Option.map_some'] at h
        injection h with h1
        injection h1 with hb ha
        cases p with
        | mk pb pa =>
          simp only at hb ha
          subst ha
          cases b with
          | nil => cases hb
          | cons b0 bs =>
            injection hb with hb0 hbs
            subst hb0
            subst hbs
            have := ih hfs
            simp [this]

theorem firstSplit_nil {sep : List Char} (hsep : sep ≠ []) :
    firstSplit sep [] = none := by
  obtain ⟨s0, ss, rfl⟩ := List.exists_cons_of_ne_nil hsep
  rfl

theorem occursB_iff (sep s : List Char) (hsep : sep ≠ []) :
    occursB sep s = true ↔ ∃ u v, s = u ++ sep ++ v := by
  induction s with
  | nil =>
    simp only [occursB, firstSplit_nil hsep, Option.isSome_none]
    constructor
    · intro h; cases h
    · rintro ⟨u, v, huv⟩
      exfalso
      cases u with
      | nil =>
        simp only [List.nil_append] at huv
        exact hsep (List.append_eq_nil.mp huv.symm).1
      | cons u0 us => cases huv
  | cons c rest ih =>
    simp only [occursB, firstSplit]
    by_cases hp : isPre sep (c :: rest) = true
    · rw [if_pos hp]
      simp only [Option.isSome_some, true_iff]
      obtain ⟨t, ht⟩ := (isPre_iff sep (c :: rest)).mp hp
      exact ⟨[], t, by simp [ht]⟩
    · rw [if_neg hp]
      rw [Option.isSome_map']
      rw [occursB] at ih
      rw [ih]
      constructor
      · rintro ⟨u, v, rfl⟩
        exact ⟨c :: u, v, by simp⟩
      · rintro ⟨u, v, huv⟩
        cases u with
        | nil =>
          exfalso
          apply hp
          rw [isPre_iff]
          exact ⟨v, by simpa using huv⟩
        | cons u0 us =>
          injection huv with h1 h2
          exact ⟨us, v, by simpa using h2⟩

/-- An occurrence on the left survives appending on the right. -/
theorem occursB_append_right {sep x : List Char} (y : List Char) (hsep : sep ≠ [])
    (h : occursB sep x = true) : occursB sep (x ++ y) = true := by
  rw [occursB_iff sep _ hsep] at h ⊢
  obtain ⟨u, v, rfl⟩ := h
  exact ⟨u, v ++ y, by simp⟩

/-- An occurrence on the right survives appending on the left. -/
theorem occursB_append_left {sep y : List Char} (x : List Char) (hsep : sep ≠ [])
    (h : occursB sep y = true) : occursB sep (x ++ y) = true := by
  rw [occursB_iff sep _ hsep] at h ⊢
  obtain ⟨u, v, rfl⟩ := h
  exact ⟨x ++ u, v, by simp⟩

/-- Every character of a pattern that occurs in `s` is a character of `s`. -/
theorem mem_of_occursB {sep s : List Char} (hsep : sep ≠ [])
    (h : occursB sep s = true) : ∀ c ∈ sep, c ∈ s := by
  rw [occursB_iff sep _ hsep] at h
  obtain ⟨u, v, rfl⟩ := h
  intro c hc
  simp [hc]

/-- Splitting an occurrence: it lies in the left part, the right part, or
straddles the boundary. -/
theorem occursB_append_split {sep x y : List Char} (hsep : sep ≠ [])
    (h : occursB sep (x ++ y) = true) :
    occursB sep x = true ∨ occursB sep y = true ∨
      ∃ p1 p2, sep = p1 ++ p2 ∧ p1 ≠ [] ∧ p2 ≠ [] ∧
        (∃ x', x = x' ++ p1) ∧ (∃ y', y = p2 ++ y') := by
  rw [occursB_iff sep _ hsep] at h
  obtain ⟨u, v, huv⟩ := h
  rcases List.append_eq_append_iff.mp huv with ⟨a', ha1, ha2⟩ | ⟨c', hc1, hc2⟩
  · -- u ++ sep = x ++ a' and y = a' ++ v
    rcases List.append_eq_append_iff.mp ha1.symm with ⟨w, hw1, hw2⟩ | ⟨w, hw1, hw2⟩
    · -- u = x ++ w and a' = w ++ sep : occurrence inside y
      right; left
      rw [occursB_iff sep _ hsep]
      exact ⟨w, v, by rw [ha2, hw2, List.append_assoc]⟩
    · -- x = u ++ w and sep = w ++ a'
      cases w with
      | nil =>
        right; left
        rw [occursB_iff sep _ hsep]
        refine ⟨[], v, ?_⟩
        simp only [List.nil_append] at hw2 ⊢
        rw [ha2, ← hw2]
      | cons w0 ws =>
        cases a' with
        | nil =>
          left
          rw [occursB_iff sep _ hsep]
          refine ⟨u, [], ?_⟩
          rw [hw1, hw2]
          simp
        | cons a0 as =>
          right; right
          exact ⟨w0 :: ws, a0 :: as, hw2, by simp, by simp, ⟨u, hw1⟩, ⟨v, ha2⟩⟩
  · -- x = (u ++ sep) ++ c' and v = c' ++ y : occurrence inside x
    left
    rw [occursB_iff sep _ hsep]
    exact ⟨u, c', hc1⟩

theorem firstSplit_of_isPre {sep s : List Char} (hsep : sep ≠ [])
    (h : isPre sep s = true) : firstSplit sep s = some ([], s.drop sep.length) := by
  cases s with
  | nil =>
    obtain ⟨s0, ss, rfl⟩ := List.exists_cons_of_ne_nil hsep
    cases h
  | cons c rest => simp only [firstSplit, if_pos h]

theorem firstSplit_cons_of_not_isPre {sep : List Char} {c : Char} {rest : List Char}
    (h : isPre sep (c :: rest) = false) :
    firstSplit sep (c :: rest) = (firstSplit sep rest).map (fun p => (c :: p.1, p.2)) := by
  simp only [firstSplit, h]
  simp

/-- If `sep` has no occurrence in `b ++ sep.dropLast` (in particular none in
`b` and none straddling the boundary), then the leftmost occurrence of `sep`
in `b ++ sep ++ a` is the marked one. -/
theorem firstSplit_marked {sep b a : List Char} (hsep : sep ≠ [])
    (hb : occursB sep (b ++ sep.dropLast) = false) :
    firstSplit sep (b ++ sep ++ a) = some (b, a) := by
  induction b with
  | nil =>
    simp only [List.nil_append]
    rw [firstSplit_of_isPre hsep ((isPre_iff sep (sep ++ a)).mpr ⟨a, rfl⟩)]
    rw [List.drop_left]
  | cons c bs ih =>
    have hpre : isPre sep (c :: bs ++ sep ++ a) = false := by
      by_contra hcon
      rw [Bool.not_eq_false, isPre_iff] at hcon
      obtain ⟨t, ht⟩ := hcon
      have hlast := List.dropLast_append_getLast hsep
      have hrw : (c :: bs) ++ sep ++ a
          = ((c :: bs) ++ sep.dropLast) ++ ([sep.getLast hsep] ++ a) := by
        conv_lhs => rw [← hlast]
        simp [List.append_assoc]
      rw [show c :: bs ++ sep ++ a = (c :: bs) ++ sep ++ a by simp, hrw] at ht
      rcases List.append_eq_append_iff.mp ht with ⟨a', ha1, _⟩ | ⟨c', hc1, _⟩
      · -- sep = ((c :: bs) ++ sep.dropLast) ++ a'
        have hlen := congrArg List.length ha1
        simp [List.length_dropLast] at hlen
        have hsl : 1 ≤ sep.length := by
          obtain ⟨s0, ss, rfl⟩ := List.exists_cons_of_ne_nil hsep
          simp
        have ha0 : a'.length = 0 := by omega
        have ha' : a' = [] := List.eq_nil_of_length_eq_zero ha0
        subst ha'
        rw [List.append_nil] at ha1
        have hocc : occursB sep (c :: (bs ++ sep.dropLast)) = true :=
          (occursB_iff sep _ hsep).mpr ⟨[], [], by simpa using ha1.symm⟩
        rw [show (c :: bs ++ sep.dropLast : List Char) = c :: (bs ++ sep.dropLast) from rfl] at hb
        rw [hb] at hocc
        exact Bool.false_ne_true hocc
      · -- (c :: bs) ++ sep.dropLast = sep ++ c'
        have hocc : occursB sep (c :: (bs ++ sep.dropLast)) = true :=
          (occursB_iff sep _ hsep).mpr ⟨[], c', by simpa using hc1⟩
        rw [show (c :: bs ++ sep.dropLast : List Char) = c :: (bs ++ sep.dropLast) from rfl] at hb
        rw [hb] at hocc
        exact Bool.false_ne_true hocc
    rw [show (c :: bs) ++ sep ++ a = c :: (bs ++ sep ++ a) by simp] at hpre ⊢
    rw [firstSplit_cons_of_not_isPre hpre]
    have hb' : occursB sep (bs ++ sep.dropLast) = false := by
      by_contra hcon
      rw [Bool.not_eq_false] at hcon
      have := occursB_append_left [c] hsep hcon
      rw [show [c] ++ (bs ++ sep.dropLast) = (c :: bs) ++ sep.dropLast by simp] at this
      rw [this] at hb
      cases hb
    rw [ih hb']
    rfl

/-- The function `splitOnF sep fuel s` : fuel-indexed splitting on every occurrence of
`sep`; with `fuel = s.length` this is Python's `s.split(sep)` (equivalently
`s.rsplit(sep)`, maxsplit absent) for non-empty `sep`. -/
def splitOnF (sep : List Char) : Nat → List Char → List (List Char)
  | 0, s => [s]
  | Nat.succ fuel, s =>
    match firstSplit sep s with
    | none => [s]
    | some p => p.1 :: splitOnF sep fuel p.2

/-- Python `s.split(sep)` / `s.rsplit(sep)` for non-empty `sep`. -/
def splitOnL (sep s : List Char) : List (List Char) := splitOnF sep s.length s

theorem splitOnF_stable {sep : List Char} (hsep : sep ≠ []) :
    ∀ f1 f2 s, s.length ≤ f1 → s.length ≤ f2 →
      splitOnF sep f1 s = splitOnF sep f2 s := by
  intro f1
  induction f1 with
  | zero =>
    intro f2 s h1 _
    have : s = [] := List.eq_nil_of_length_eq_zero (Nat.le_zero.mp h1)
    subst this
    cases f2 with
    | zero => rfl
    | succ m => simp [splitOnF, firstSplit_nil hsep]
  | succ n ih =>
    intro f2 s h1 h2
    cases f2 with
    | zero =>
      have : s = [] := List.eq_nil_of_length_eq_zero (Nat.le_zero.mp h2)
      subst this
      simp [splitOnF, firstSplit_nil hsep]
    | succ m =>
      cases hfs : firstSplit sep s with
      | none => simp only [splitOnF, hfs]
      | some p =>
        have hdec := firstSplit_decomp hsep (show firstSplit sep s = some (p.1, p.2) by
          rw [hfs])
        have hsl : 1 ≤ sep.length := by
          obtain ⟨s0, ss, rfl⟩ := List.exists_cons_of_ne_nil hsep
          simp
        have hlen : p.2.length < s.length := by
          rw [hdec]
          simp
          omega
        simp only [splitOnF, hfs]
        rw [ih m p.2 (by omega) (by omega)]

theorem splitOnL_not_occurs {sep s : List Char} (h : occursB sep s = false) :
    splitOnL sep s = [s] := by
  cases s with
  | nil => rfl
  | cons c rest =>
    have hfs : firstSplit sep (c :: rest) = none := by
      rw [occursB] at h
      exact Option.not_isSome_iff_eq_none.mp (by rw [h]; simp)
    simp [splitOnL, splitOnF, hfs]

theorem splitOnL_marked {sep b a : List Char} (hsep : sep ≠ [])
    (hb : occursB sep (b ++ sep.dropLast) = false) :
    splitOnL sep (b ++ sep ++ a) = b :: splitOnL sep a := by
  have hsl : 1 ≤ sep.length := by
    obtain ⟨s0, ss, rfl⟩ := List.exists_cons_of_ne_nil hsep
    simp
  have hlen : (b ++ sep ++ a).length = (b.length + sep.length + a.length - 1) + 1 := by
    simp
    omega
  rw [splitOnL, hlen]
  simp only [splitOnF]
  rw [firstSplit_marked hsep hb]
  show b :: splitOnF sep (b.length + sep.length + a.length - 1) a = b :: splitOnL sep a
  rw [splitOnF_stable hsep _ a.length a (by omega) (le_refl _)]
  rfl

/-- Fuel-indexed replacement of every (leftmost, non-overlapping) occurrence
of `pat` by `repl`; with `fuel = s.length` this is Python's
`s.replace(pat, repl)` for non-empty `pat`. -/
def replaceF (pat repl : List Char) : Nat → List Char → List Char
  | 0, s => s
  | Nat.succ fuel, s =>
    match firstSplit pat s with
    | none => s
    | some p => p.1 ++ repl ++ replaceF pat repl fuel p.2

/-- Python `s.replace(pat, repl)` for non-empty `pat`. -/
def replaceL (pat repl s : List Char) : List Char := replaceF pat repl s.length s

theorem replaceF_stable {pat repl : List Char} (hpat : pat ≠ []) :
    ∀ f1 f2 s, s.length ≤ f1 → s.length ≤ f2 →
      replaceF pat repl f1 s = replaceF pat repl f2 s := by
  intro f1
  induction f1 with
  | zero =>
    intro f2 s h1 _
    have : s = [] := List.eq_nil_of_length_eq_zero (Nat.le_zero.mp h1)
    subst this
    cases f2 with
    | zero => rfl
    | succ m => simp [replaceF, firstSplit_nil hpat]
  | succ n ih =>
    intro f2 s h1 h2
    cases f2 with
    | zero =>
      have : s = [] := List.eq_nil_of_length_eq_zero (Nat.le_zero.mp h2)
      subst this
      simp [replaceF, firstSplit_nil hpat]
    | succ m =>
      cases hfs : firstSplit pat s with
      | none => simp only [replaceF, hfs]
      | some p =>
        have hdec := firstSplit_decomp hpat (show firstSplit pat s = some (p.1, p.2) by
          rw [hfs])
        have hsl : 1 ≤ pat.length := by
          obtain ⟨s0, ss, rfl⟩ := List.exists_cons_of_ne_nil hpat
          simp
        have hlen : p.2.length < s.length := by
          rw [hdec]
          simp
          omega
        simp only [replaceF, hfs]
        rw [ih m p.2 (by omega) (by omega)]

theorem replaceL_not_occurs {pat repl s : List Char} (h : occursB pat s = false) :
    replaceL pat repl s = s := by
  cases s with
  | nil => rfl
  | cons c rest =>
    have hfs : firstSplit pat (c :: rest) = none := by
      rw [occursB] at h
      exact Option.not_isSome_iff_eq_none.mp (by rw [h]; simp)
    simp [replaceL, replaceF, hfs]

theorem replaceL_marked {pat repl b a : List Char} (hpat : pat ≠ [])
    (hb : occursB pat (b ++ pat.dropLast) = false)
    (ha : occursB pat a = false) :
    replaceL pat repl (b ++ pat ++ a) = b ++ repl ++ a := by
  have hsl : 1 ≤ pat.length := by
    obtain ⟨s0, ss, rfl⟩ := List.exists_cons_of_ne_nil hpat
    simp
  have hlen : (b ++ pat ++ a).length = (b.length + pat.length + a.length - 1) + 1 := by
    simp
    omega
  rw [replaceL, hlen]
  simp only [replaceF]
  rw [firstSplit_marked hpat hb]
  show b ++ repl ++ replaceF pat repl (b.length + pat.length + a.length - 1) a
      = b ++ repl ++ a
  rw [replaceF_stable hpat _ a.length a (by omega) (le_refl _)]
  rw [show replaceF pat repl a.length a = replaceL pat repl a from rfl]
  rw [replaceL_not_occurs ha]

/-! ## Embedding of `convert_to_bids.py` -/

/-- Python exceptions that the modelled operations can raise. -/
inductive PyErr where
  | indexError : PyErr
  | ioError : PyErr
  | valueError : PyErr
deriving DecidableEq

deriving instance DecidableEq for Except

/-- Python list indexing `l[i]`: raises `IndexError` when out of range. -/
def pyIndex (l : List (List Char)) (i : Nat) : Except PyErr (List Char) :=
  match l.get? i with
  | some a => Except.ok a
  | none => Except.error PyErr.indexError

/-- Embedding of `extract_patient_id` (convert_to_bids.py, lines 25-53).
`rsplit` with no maxsplit returns the same list as `split`, so both are
`splitOnL`.  The Python code indexes the split results with `[1]`/`[0]`,
which raises an uncaught `IndexError` when the separator is absent; that is
modelled by `pyIndex`, in the evaluation order of the source lines. -/
def extract_patient_id (dirname : List Char) : Except PyErr (List Char) :=
  if occursB (str "DEV2") dirname then
    match pyIndex (splitOnL (str "DEV2_") dirname) 1 with
    | Except.error e => Except.error e
    | Except.ok s1 =>
      match pyIndex (splitOnL (str "_") s1) 0 with
      | Except.error e => Except.error e
      | Except.ok patient_number =>
        match pyIndex (splitOnL (str "Sujet") dirname) 1 with
        | Except.error e => Except.error e
        | Except.ok sujet_number =>
          Except.ok (str "sub-DEV" ++ patient_number ++ str "Sujet" ++ sujet_number)
  else
    match pyIndex (splitOnL (str "ICEBERG_") dirname) 1 with
    | Except.error e => Except.error e
    | Except.ok s1 =>
      match pyIndex (splitOnL (str "_") s1) 0 with
      | Except.error e => Except.error e
      | Except.ok initials =>
        match pyIndex (splitOnL (str "_") s1) 1 with
        | Except.error e => Except.error e
        | Except.ok number => Except.ok (str "sub-" ++ initials ++ number)

/-- Decimal rendering of the chunk counter, as Python f-string interpolation
of an `int`. -/
def natStr (n : Nat) : List Char := (Nat.repr n).data

/-- Embedding of `determine_scan_type_and_bids_path` (convert_to_bids.py,
lines 103-126): ordered `if`/`elif` chain of substring tests against the raw
filename; Python's `return None, None` fall-through is modelled as `none`. -/
def determine_scan_type_and_bids_path (filename patient_id : List Char)
    (dwi_chunk_counter : Nat) : Option (List Char × List Char) :=
  if occursB (str "T2_SAG") filename then
    some (patient_id ++ str "_T2.nii.gz", str "anat")
  else if occursB (str "DTI_64DIR") filename then
    some (patient_id ++ str "_chunk-" ++ natStr dwi_chunk_counter ++ str "_DWI.nii.gz",
      str "dwi")
  else if occursB (str "T1_SAG_MT_FL3D") filename then
    some (patient_id ++ str "_mt-on_MTS.nii.gz", str "anat")
  else if occursB (str "T1_SAG_FL3D") filename then
    some (patient_id ++ str "_mt-off_MTS.nii.gz", str "anat")
  else if occursB (str "mp2rage_sag_p3_1mm_iso_T1") filename then
    some (patient_id ++ str "_T1map.nii.gz", str "anat")
  else if occursB (str "mp2rage_sag_p3_1mm_iso_UNI") filename then
    some (patient_id ++ str "_UNIT1.nii.gz", str "anat")
  else none

/-! ### File-system model for the orchestrator

File contents are byte lists (`List Nat`).  A source file system maps a walk
directory path and a file name to an optional content (`none` models an IO
read failure, raised by `open`/`shutil.copy`).  Destination writes are
recorded relative to the output root as the component path
`[patient_id, subfolder, filename]` (the constant output-root prefix of
`os.path.join(path_out, ...)` is omitted).  The gzip compression performed
by `zip_and_move_nifti` is a parameter `gz` on contents; where its byte-level
behaviour matters (claim C8) it is instantiated with `gzipBytes`, which
exposes the wall-clock MTIME field `gzip.open` writes into every member
header.  The `os.makedirs(..., exist_ok=True)` call is idempotent directory
creation with no observable content effect and is not recorded. -/

/-- A single destination write: component path (relative to the output
root) and the bytes written. -/
structure Write where
  path : List (List Char)
  content : List Nat
deriving DecidableEq

/-- Source file system: directory path → file name → content, `none` for an
IO failure. -/
def FS : Type := List Char → List Char → Option (List Nat)

/-- One raw acquisition directory as discovered by `os.listdir`, together
with its `os.walk` traversal (pairs of directory path and file-name list, in
visit order). -/
structure SubjectDir where
  name : List Char
  isDir : Bool
  walk : List (List Char × List (List Char))

/-- Python `shutil.copy` of an associated file, guarded by the `in filenames`
membership test of the source (lines 89, 96): no-op when absent, an `IOError`
when present but unreadable. -/
def copyAssoc (fs : FS) (dirpath : List Char) (filenames : List (List Char))
    (srcname : List Char) (destpath : List (List Char)) :
    List Write × Option PyErr :=
  if srcname ∈ filenames then
    match fs dirpath srcname with
    | none => ([], some PyErr.ioError)
    | some c => ([⟨destpath, c⟩], none)
  else ([], none)

/-- Embedding of the per-file body of `convert_mri_to_bids` (lines 80-100):
primary NIfTI gzip-copy, then sidecar JSON copy, then — when `'DWI' in
new_filename` — bval/bvec copies and the chunk-counter increment.  Returns
the writes performed (in order) and either the updated counter or the
uncaught exception that aborted this file (earlier writes persist). -/
def processFile (gz : List Nat → List Nat) (fs : FS) (pid : List Char)
    (dirpath : List Char) (filenames : List (List Char)) (filename : List Char)
    (ctr : Nat) : List Write × Except PyErr Nat :=
  if (str ".nii").isSuffixOf filename then
    match determine_scan_type_and_bids_path filename pid ctr with
    | none => ([], Except.ok ctr)
    | some (nf, sub) =>
      match fs dirpath filename with
      | none => ([], Except.error PyErr.ioError)
      | some content =>
        let wPrimary : Write := ⟨[pid, sub, nf], gz content⟩
        let jn := replaceL (str ".nii") (str ".json") filename
        match copyAssoc fs dirpath filenames jn
            [pid, sub, replaceL (str ".nii.gz") (str ".json") nf] with
        | (wj, some e) => ([wPrimary] ++ wj, Except.error e)
        | (wj, none) =>
          if occursB (str "DWI") nf then
            match copyAssoc fs dirpath filenames
                (replaceL (str ".nii") (str ".bval") filename)
                [pid, sub, replaceL (str ".nii.gz") (str ".bval") nf] with
            | (wbval, some e) => ([wPrimary] ++ wj ++ wbval, Except.error e)
            | (wbval, none) =>
              match copyAssoc fs dirpath filenames
                  (replaceL (str ".nii") (str ".bvec") filename)
                  [pid, sub, replaceL (str ".nii.gz") (str ".bvec") nf] with
              | (wbvec, some e) =>
                ([wPrimary] ++ wj ++ wbval ++ wbvec, Except.error e)
              | (wbvec, none) =>
                ([wPrimary] ++ wj ++ wbval ++ wbvec, Except.ok (ctr + 1))
          else ([wPrimary] ++ wj, Except.ok ctr)
  else ([], Except.ok ctr)

/-- The `for filename in filenames` loop over one walked directory; an
uncaught exception aborts the remaining iterations. -/
def processFileList (gz : List Nat → List Nat) (fs : FS) (pid : List Char)
    (dirpath : List Char) (filenames : List (List Char)) :
    List (List Char) → Nat → List Write × Except PyErr Nat
  | [], ctr => ([], Except.ok ctr)
  | f :: rest, ctr =>
    match processFile gz fs pid dirpath filenames f ctr with
    | (ws, Except.error e) => (ws, Except.error e)
    | (ws, Except.ok ctr') =>
      match processFileList gz fs pid dirpath filenames rest ctr' with
      | (ws', r) => (ws ++ ws', r)

/-- The `for dirpath, _, filenames in os.walk(...)` loop (line 78). -/
def processWalk (gz : List Nat → List Nat) (fs : FS) (pid : List Char) :
    List (List Char × List (List Char)) → Nat → List Write × Except PyErr Nat
  | [], ctr => ([], Except.ok ctr)
  | (dirpath, filenames) :: rest, ctr =>
    match processFileList gz fs pid dirpath filenames filenames ctr with
    | (ws, Except.error e) => (ws, Except.error e)
    | (ws, Except.ok ctr') =>
      match processWalk gz fs pid rest ctr' with
      | (ws', r) => (ws ++ ws', r)

/-- Embedding of `convert_mri_to_bids` (lines 56-100): iterate over the
listed entries; for directories, derive the patient id (an exception here is
uncaught and aborts the whole run), skip when it is falsy, otherwise walk the
subject tree with the chunk counter initialised to 1.  Returns all writes
performed and the exception that ended the run, if any. -/
def convert_mri_to_bids (gz : List Nat → List Nat) (fs : FS) :
    List SubjectDir → List Write × Option PyErr
  | [] => ([], none)
  | d :: rest =>
    if d.isDir then
      match extract_patient_id d.name with
      | Except.error e => ([], some e)
      | Except.ok pid =>
        if pid = [] then convert_mri_to_bids gz fs rest
        else
          match processWalk gz fs pid d.walk 1 with
          | (ws, Except.error e) => (ws, some e)
          | (ws, Except.ok _) =>
            match convert_mri_to_bids gz fs rest with
            | (ws', r) => (ws ++ ws', r)
    else convert_mri_to_bids gz fs rest

/-- Applying a list of writes to a destination tree (path → content), last
write wins, as file-system writes overwrite. -/
def applyWrites (ws : List Write) (dest : List (List Char) → Option (List Nat)) :
    List (List Char) → Option (List Nat) :=
  ws.foldl (fun acc w => fun p => if p = w.path then some w.content else acc p) dest

/-! ## Helper lemmas about character classes and single-character patterns -/

theorem occursB_single_false {ch : Char} {s : List Char} (h : ch ∉ s) :
    occursB [ch] s = false := by
  by_contra hcon
  rw [Bool.not_eq_false] at hcon
  exact h (mem_of_occursB (by simp) hcon ch (by simp))

theorem not_underscore_of_digits {s : List Char}
    (h : ∀ c ∈ s, c.isDigit = true) : occursB (str "_") s = false := by
  have : (str "_") = ['_'] := by decide
  rw [this]
  apply occursB_single_false
  intro hm
  have := h '_' hm
  simp at this

theorem not_underscore_of_alpha {s : List Char}
    (h : ∀ c ∈ s, c.isAlpha = true) : occursB (str "_") s = false := by
  have : (str "_") = ['_'] := by decide
  rw [this]
  apply occursB_single_false
  intro hm
  have := h '_' hm
  simp at this

/-! ## Claim C4 : the scan classifier -/

/-- The spec's ordered rule table (§4.2): substring pattern paired with the
classification it produces (destination-filename builder from the subject id
and the running diffusion sequence counter, and the target subfolder). -/
def scanRules : List (List Char × (List Char → Nat → List Char × List Char)) :=
  [ (str "T2_SAG", fun pid _ => (pid ++ str "_T2.nii.gz", str "anat")),
    (str "DTI_64DIR",
      fun pid c => (pid ++ str "_chunk-" ++ natStr c ++ str "_DWI.nii.gz", str "dwi")),
    (str "T1_SAG_MT_FL3D", fun pid _ => (pid ++ str "_mt-on_MTS.nii.gz", str "anat")),
    (str "T1_SAG_FL3D", fun pid _ => (pid ++ str "_mt-off_MTS.nii.gz", str "anat")),
    (str "mp2rage_sag_p3_1mm_iso_T1", fun pid _ => (pid ++ str "_T1map.nii.gz", str "anat")),
    (str "mp2rage_sag_p3_1mm_iso_UNI", fun pid _ => (pid ++ str "_UNIT1.nii.gz", str "anat")) ]

/-- First-match-wins evaluation of the ordered rule table, written from the
spec's words ("ordered rule table (first match wins), each rule a substring
test against the raw filename"); `none` is "unrecognized". -/
def classifySpec (filename pid : List Char) (c : Nat) : Option (List Char × List Char) :=
  (scanRules.find? (fun r => occursB r.1 filename)).map (fun r => r.2 pid c)

/-- Claim C4 : The scan classifier is a total function over raw filenames: it
agrees everywhere with first-match-wins evaluation of the six-entry ordered
rule table (sagittal-T2, 64-direction diffusion, MT-on, MT-off, T1-mapping,
UNIT1-mapping), and it returns "unrecognized" (`none`) exactly for the
filenames matching none of the six substring patterns. -/
theorem c4_classifier_first_match_total (f pid : List Char) (c : Nat) :
    determine_scan_type_and_bids_path f pid c = classifySpec f pid c ∧
      (determine_scan_type_and_bids_path f pid c = none ↔
        ∀ p ∈ scanRules.map Prod.fst, occursB p f = false) := by
  cases h1 : occursB (str "T2_SAG") f <;>
    cases h2 : occursB (str "DTI_64DIR") f <;>
    cases h3 : occursB (str "T1_SAG_MT_FL3D") f <;>
    cases h4 : occursB (str "T1_SAG_FL3D") f <;>
    cases h5 : occursB (str "mp2rage_sag_p3_1mm_iso_T1") f <;>
    cases h6 : occursB (str "mp2rage_sag_p3_1mm_iso_UNI") f <;>
    refine ⟨?_, ?_⟩ <;>
    simp [determine_scan_type_and_bids_path, classifySpec, scanRules, List.find?,
      h1, h2, h3, h4, h5, h6]

/-! ## Claim C5 : the subject-identifier parser on its two grammars -/

/-- Claim C5 : On every directory name matching the healthy-control grammar
(`pre ++ "DEV2_" ++ code ++ "_" ++ mid ++ "Sujet" ++ suj` with numeric
`code`/`suj`, the markers first occurring at their grammatical positions and
not recurring), the parser returns `sub-DEV<code>Sujet<suj>` with no missing
digits; and on every directory name matching the patient grammar
(`pre ++ "ICEBERG_" ++ ini ++ "_" ++ num ++ rest` with alphabetic initials
`ini`, numeric `num`, `rest` empty or starting at a separator, no
healthy-control marker, study marker first occurring at its grammatical
position and not recurring), it returns `sub-<ini><num>`. -/
theorem c5_parse_grammars :
    (∀ pre code mid suj : List Char,
      (∀ c ∈ code, c.isDigit = true) →
      (∀ c ∈ suj, c.isDigit = true) →
      occursB (str "DEV2_") (pre ++ (str "DEV2_").dropLast) = false →
      occursB (str "DEV2_") (code ++ str "_" ++ mid ++ str "Sujet" ++ suj) = false →
      occursB (str "Sujet")
        ((pre ++ str "DEV2_" ++ code ++ str "_" ++ mid) ++ (str "Sujet").dropLast) = false →
      extract_patient_id (pre ++ str "DEV2_" ++ code ++ str "_" ++ mid ++ str "Sujet" ++ suj)
        = Except.ok (str "sub-DEV" ++ code ++ str "Sujet" ++ suj)) ∧
    (∀ pre ini num rest : List Char,
      (∀ c ∈ ini, c.isAlpha = true) →
      (∀ c ∈ num, c.isDigit = true) →
      occursB (str "DEV2") (pre ++ str "ICEBERG_" ++ ini ++ str "_" ++ num ++ rest) = false →
      occursB (str "ICEBERG_") (pre ++ (str "ICEBERG_").dropLast) = false →
      occursB (str "ICEBERG_") (ini ++ str "_" ++ num ++ rest) = false →
      (rest = [] ∨ ∃ r', rest = '_' :: r') →
      extract_patient_id (pre ++ str "ICEBERG_" ++ ini ++ str "_" ++ num ++ rest)
        = Except.ok (str "sub-" ++ ini ++ num)) := by
  constructor
  · intro pre code mid suj hcode hsuj hpre htail hsujet
    set tail : List Char := code ++ str "_" ++ mid ++ str "Sujet" ++ suj with htaildef
    have hd : pre ++ str "DEV2_" ++ code ++ str "_" ++ mid ++ str "Sujet" ++ suj
        = pre ++ str "DEV2_" ++ tail := by
      rw [htaildef]; simp [List.append_assoc]
    have hdev : occursB (str "DEV2") (pre ++ str "DEV2_" ++ tail) = true := by
      rw [occursB_iff _ _ (by decide)]
      refine ⟨pre, str "_" ++ tail, ?_⟩
      have : str "DEV2_" = str "DEV2" ++ str "_" := by decide
      rw [this]
      simp [List.append_assoc]
    have hsplit1 : splitOnL (str "DEV2_") (pre ++ str "DEV2_" ++ tail) = [pre, tail] := by
      rw [splitOnL_marked (by decide) hpre, splitOnL_not_occurs (by rw [htaildef]; exact htail)]
    have hsplit2 : splitOnL (str "_") tail
        = code :: splitOnL (str "_") (mid ++ str "Sujet" ++ suj) := by
      have h1 : tail = code ++ str "_" ++ (mid ++ str "Sujet" ++ suj) := by
        rw [htaildef]; simp [List.append_assoc]
      rw [h1]
      apply splitOnL_marked (by decide)
      rw [show (str "_").dropLast = ([] : List Char) by decide, List.append_nil]
      exact not_underscore_of_digits hcode
    have hnos : occursB (str "Sujet") suj = false := by
      by_contra hcon
      rw [Bool.not_eq_false] at hcon
      have hmem := mem_of_occursB (by decide) hcon 'S' (by decide)
      have := hsuj 'S' hmem
      simp at this
    have hsplit3 : splitOnL (str "Sujet") (pre ++ str "DEV2_" ++ tail)
        = [pre ++ str "DEV2_" ++ code ++ str "_" ++ mid, suj] := by
      have h1 : pre ++ str "DEV2_" ++ tail
          = (pre ++ str "DEV2_" ++ code ++ str "_" ++ mid) ++ str "Sujet" ++ suj := by
        rw [htaildef]; simp [List.append_assoc]
      rw [h1, splitOnL_marked (by decide) hsujet, splitOnL_not_occurs hnos]
    rw [hd]
    simp only [extract_patient_id, hdev, if_true, hsplit1, hsplit2, hsplit3, pyIndex,
      List.get?_cons_succ, List.get?_cons_zero]
  · intro pre ini num rest hini hnum hnodev hpre htail hrest
    set tail : List Char := ini ++ str "_" ++ num ++ rest with htaildef
    have hd : pre ++ str "ICEBERG_" ++ ini ++ str "_" ++ num ++ rest
        = pre ++ str "ICEBERG_" ++ tail := by
      rw [htaildef]; simp [List.append_assoc]
    have hsplit1 : splitOnL (str "ICEBERG_") (pre ++ str "ICEBERG_" ++ tail)
        = [pre, tail] := by
      rw [splitOnL_marked (by decide) hpre, splitOnL_not_occurs (by rw [htaildef]; exact htail)]
    have hnum' : occursB (str "_") num = false := not_underscore_of_digits hnum
    have hsplit2 : splitOnL (str "_") tail = ini :: splitOnL (str "_") (num ++ rest) := by
      have h1 : tail = ini ++ str "_" ++ (num ++ rest) := by
        rw [htaildef]; simp [List.append_assoc]
      rw [h1]
      apply splitOnL_marked (by decide)
      rw [show (str "_").dropLast = ([] : List Char) by decide, List.append_nil]
      exact not_underscore_of_alpha hini
    have hsplit2b : ∃ l, splitOnL (str "_") (num ++ rest) = num :: l := by
      rcases hrest with hr | ⟨r', hr⟩
      · subst hr
        rw [List.append_nil, splitOnL_not_occurs hnum']
        exact ⟨[], rfl⟩
      · subst hr
        have h1 : num ++ '_' :: r' = num ++ str "_" ++ r' := by
          rw [show str "_" = ['_'] by decide]
          simp
        rw [h1]
        rw [splitOnL_marked (by decide)
          (by rw [show (str "_").dropLast = ([] : List Char) by decide, List.append_nil]
              exact hnum')]
        exact ⟨splitOnL (str "_") r', rfl⟩
    obtain ⟨l, hl⟩ := hsplit2b
    rw [hd] at hnodev ⊢
    simp only [extract_patient_id, hnodev, if_false, Bool.false_eq_true, hsplit1, hsplit2,
      hl, pyIndex, List.get?_cons_succ, List.get?_cons_zero]

/-- Witness for C5 at the spec's two worked examples. -/
theorem c5_parse_grammars_witness :
    extract_patient_id (str "2023_10_02_DEV2_206_01_ICEBERG_ME_Sujet10")
        = Except.ok (str "sub-DEV206Sujet10") ∧
      extract_patient_id (str "2020_09_16_ICEBERG_LM_166_V3_M")
        = Except.ok (str "sub-LM166") := by
  constructor
  · have h := c5_parse_grammars.1 (str "2023_10_02_") (str "206") (str "01_ICEBERG_ME_")
      (str "10") (by decide) (by decide) (by decide) (by decide) (by decide)
    have harg : str "2023_10_02_DEV2_206_01_ICEBERG_ME_Sujet10"
        = str "2023_10_02_" ++ str "DEV2_" ++ str "206" ++ str "_"
          ++ str "01_ICEBERG_ME_" ++ str "Sujet" ++ str "10" := by decide
    have hres : str "sub-DEV206Sujet10"
        = str "sub-DEV" ++ str "206" ++ str "Sujet" ++ str "10" := by decide
    rw [harg, hres]
    exact h
  · have h := c5_parse_grammars.2 (str "2020_09_16_") (str "LM") (str "166")
      (str "_V3_M") (by decide) (by decide) (by decide) (by decide) (by decide)
      (Or.inr ⟨str "V3_M", by decide⟩)
    have harg : str "2020_09_16_ICEBERG_LM_166_V3_M"
        = str "2020_09_16_" ++ str "ICEBERG_" ++ str "LM" ++ str "_"
          ++ str "166" ++ str "_V3_M" := by decide
    have hres : str "sub-LM166" = str "sub-" ++ str "LM" ++ str "166" := by decide
    rw [harg, hres]
    exact h

/-! ## Claims C1 and C2 : failure propagation in the orchestrator -/

theorem copyAssoc_ok {fs : FS} {dp : List Char} {fns : List (List Char)}
    (srcname : List Char) (destpath : List (List Char))
    (hfns : ∀ g ∈ fns, fs dp g ≠ none) :
    ∃ ws, copyAssoc fs dp fns srcname destpath = (ws, none) := by
  unfold copyAssoc
  by_cases hmem : srcname ∈ fns
  · rw [if_pos hmem]
    cases hc : fs dp srcname with
    | none => exact absurd hc (hfns _ hmem)
    | some c => exact ⟨[⟨destpath, c⟩], rfl⟩
  · rw [if_neg hmem]
    exact ⟨[], rfl⟩

theorem processFile_ok {gz : List Nat → List Nat} {fs : FS} {pid dp : List Char}
    {fns : List (List Char)} {f : List Char} {ctr : Nat}
    (hf : fs dp f ≠ none)
    (hfns : ∀ g ∈ fns, fs dp g ≠ none) :
    ∃ ws c', processFile gz fs pid dp fns f ctr = (ws, Except.ok c') := by
  by_cases hsuf : (str ".nii").isSuffixOf f = true
  · cases hdet : determine_scan_type_and_bids_path f pid ctr with
    | none => exact ⟨[], ctr, by simp only [processFile, hsuf, if_true, hdet]⟩
    | some p =>
      obtain ⟨nf, sub⟩ := p
      cases hc : fs dp f with
      | none => exact absurd hc hf
      | some content =>
        obtain ⟨wj, hwj⟩ := copyAssoc_ok
          (replaceL (str ".nii") (str ".json") f)
          [pid, sub, replaceL (str ".nii.gz") (str ".json") nf] hfns
        by_cases hdwi : occursB (str "DWI") nf = true
        · obtain ⟨wbval, hbval⟩ := copyAssoc_ok
            (replaceL (str ".nii") (str ".bval") f)
            [pid, sub, replaceL (str ".nii.gz") (str ".bval") nf] hfns
          obtain ⟨wbvec, hbvec⟩ := copyAssoc_ok
            (replaceL (str ".nii") (str ".bvec") f)
            [pid, sub, replaceL (str ".nii.gz") (str ".bvec") nf] hfns
          refine ⟨[⟨[pid, sub, nf], gz content⟩] ++ wj ++ wbval ++ wbvec, ctr + 1, ?_⟩
          simp only [processFile, hsuf, if_true, hdet, hc, hwj, hdwi, hbval, hbvec]
        · rw [Bool.not_eq_true] at hdwi
          refine ⟨[⟨[pid, sub, nf], gz content⟩] ++ wj, ctr, ?_⟩
          simp only [processFile, hsuf, if_true, hdet, hc, hwj, hdwi,
            Bool.false_eq_true, if_false]
  · rw [Bool.not_eq_true] at hsuf
    exact ⟨[], ctr, by simp only [processFile, hsuf, Bool.false_eq_true, if_false]⟩

theorem processFileList_ok {gz : List Nat → List Nat} {fs : FS} {pid dp : List Char}
    {fns : List (List Char)} {pending : List (List Char)} {ctr : Nat}
    (hp : ∀ f ∈ pending, fs dp f ≠ none)
    (hfns : ∀ g ∈ fns, fs dp g ≠ none) :
    ∃ ws c', processFileList gz fs pid dp fns pending ctr = (ws, Except.ok c') := by
  induction pending generalizing ctr with
  | nil => exact ⟨[], ctr, rfl⟩
  | cons f rest ih =>
    obtain ⟨ws1, c1, h1⟩ := @processFile_ok gz fs pid dp fns f ctr
      (hp f (by simp)) hfns
    obtain ⟨ws2, c2, h2⟩ := @ih c1 (fun g hg => hp g (by simp [hg]))
    exact ⟨ws1 ++ ws2, c2, by simp only [processFileList, h1, h2]⟩

theorem processWalk_ok {gz : List Nat → List Nat} {fs : FS} {pid : List Char}
    {walk : List (List Char × List (List Char))} {ctr : Nat}
    (hreads : ∀ dp fns, (dp, fns) ∈ walk → ∀ f ∈ fns, fs dp f ≠ none) :
    ∃ ws c', processWalk gz fs pid walk ctr = (ws, Except.ok c') := by
  induction walk generalizing ctr with
  | nil => exact ⟨[], ctr, rfl⟩
  | cons e rest ih =>
    obtain ⟨dp, fns⟩ := e
    have hfns : ∀ f ∈ fns, fs dp f ≠ none := hreads dp fns (by simp)
    obtain ⟨ws1, c1, h1⟩ := @processFileList_ok gz fs pid dp fns fns ctr hfns hfns
    obtain ⟨ws2, c2, h2⟩ :=
      @ih c1 (fun dp' fns' hmem => hreads dp' fns' (by simp [hmem]))
    exact ⟨ws1 ++ ws2, c2, by simp only [processWalk, h1, h2]⟩

/-- Claim C2, amended : Per-file classification failures are local and
non-fatal, but IO failures are not: whenever every directory name parses and
every listed file is readable, the run completes over all directories and
files (no exception ends the run), regardless of how many files fail
classification; an IO read failure on one file, by contrast, aborts the
whole remaining batch (see the counterexample). -/
theorem c2_completion_without_io_failure (gz : List Nat → List Nat) (fs : FS)
    (dirs : List SubjectDir)
    (hparse : ∀ d ∈ dirs, d.isDir = true →
      ∃ pid, extract_patient_id d.name = Except.ok pid)
    (hreads : ∀ d ∈ dirs, ∀ dp fns, (dp, fns) ∈ d.walk → ∀ f ∈ fns, fs dp f ≠ none) :
    (convert_mri_to_bids gz fs dirs).2 = none := by
  induction dirs with
  | nil => rfl
  | cons d rest ih =>
    have ihrest := ih (fun d' hd' => hparse d' (by simp [hd']))
      (fun d' hd' => hreads d' (by simp [hd']))
    by_cases hdir : d.isDir = true
    · obtain ⟨pid, hpid⟩ := hparse d (by simp) hdir
      by_cases hnil : pid = []
      · simp only [convert_mri_to_bids, hdir, if_true, hpid, hnil, if_pos rfl]
        exact ihrest
      · obtain ⟨ws, c', hwalk⟩ := @processWalk_ok gz fs pid d.walk 1
          (hreads d (by simp))
        cases hrest : convert_mri_to_bids gz fs rest with
        | mk ws' r =>
          rw [hrest] at ihrest
          simp only [convert_mri_to_bids, hdir, if_true, hpid, if_neg hnil, hwalk, hrest]
          simpa using ihrest
    · rw [Bool.not_eq_true] at hdir
      simp only [convert_mri_to_bids, hdir, Bool.false_eq_true, if_false]
      exact ihrest

/-- Witness for C2 (amended): a run over one subject containing an
unrecognized file and a recognized one completes without an exception. -/
theorem c2_completion_witness :
    (convert_mri_to_bids (fun c => c) (fun _ _ => some [7])
      [⟨str "2020_10_28_ICEBERG_LC_164_V3_M", true,
        [(str "p", [str "UNKNOWN_SEQ.nii", str "T2_SAG_A.nii"])]⟩]).2 = none := by
  apply c2_completion_without_io_failure
  · intro d hd _
    refine ⟨str "sub-LC164", ?_⟩
    have : d = ⟨str "2020_10_28_ICEBERG_LC_164_V3_M", true,
        [(str "p", [str "UNKNOWN_SEQ.nii", str "T2_SAG_A.nii"])]⟩ := by
      simpa using hd
    rw [this]
    decide
  · intro d hd dp fns hw f hf
    simp

/-- Claim C2, counterexample : an IO read failure on the first file aborts the
whole batch: nothing is written at all (in particular the second, readable
and classifiable, diffusion file is never processed) and the run ends with
the uncaught `IOError`, contradicting "the conversion run always completes
over all remaining files". -/
theorem c2_io_failure_aborts_batch :
    convert_mri_to_bids (fun c => c)
        (fun _ f => if f = str "T2_SAG_A.nii" then none else some [1])
        [⟨str "2020_10_28_ICEBERG_LC_164_V3_M", true,
          [(str "p", [str "T2_SAG_A.nii", str "DTI_64DIR_B.nii"])]⟩]
      = ([], some PyErr.ioError) ∧
    determine_scan_type_and_bids_path (str "DTI_64DIR_B.nii") (str "sub-LC164") 1
      = some (str "sub-LC164_chunk-1_DWI.nii.gz", str "dwi") ∧
    (if (str "DTI_64DIR_B.nii") = str "T2_SAG_A.nii" then none else some [1])
      = some [1] := by
  refine ⟨by decide, by decide, by decide⟩

/-- Claim C1 : On a directory name containing neither "DEV2" nor "ICEBERG_",
`extract_patient_id` raises an uncaught `IndexError` (from `split(...)[1]`),
and the orchestrator does not skip the directory: the run aborts with
nothing processed, so the remaining (valid) directory is never converted —
even though the same directory alone converts fine. -/
theorem c1_unrecognized_dir_aborts_run :
    extract_patient_id (str "2020_01_01_FOO") = Except.error PyErr.indexError ∧
    convert_mri_to_bids (fun c => c) (fun _ _ => some [0])
        [⟨str "2020_01_01_FOO", true, [(str "p", [str "T2_SAG_A.nii"])]⟩,
         ⟨str "2020_10_28_ICEBERG_LC_164_V3_M", true, [(str "p", [str "T2_SAG_A.nii"])]⟩]
      = ([], some PyErr.indexError) ∧
    convert_mri_to_bids (fun c => c) (fun _ _ => some [0])
        [⟨str "2020_10_28_ICEBERG_LC_164_V3_M", true, [(str "p", [str "T2_SAG_A.nii"])]⟩]
      = ([⟨[str "sub-LC164", str "anat", str "sub-LC164_T2.nii.gz"], [0]⟩], none) := by
  refine ⟨by decide, by decide, by decide⟩

/-! ## Claims C3 and C9 : the diffusion chunk counter and its "DWI" trigger -/

/-- A raw filename classifies into the diffusion subfolder exactly when it
lacks the sagittal-T2 marker (tested first) and carries the 64-direction
diffusion marker. -/
def isDWIScan (f : List Char) : Bool :=
  !occursB (str "T2_SAG") f && occursB (str "DTI_64DIR") f

/-- The destination filename the classifier builds for the diffusion chunk
with (pre-increment) sequence number `c`. -/
def chunkName (pid : List Char) (c : Nat) : List Char :=
  pid ++ str "_chunk-" ++ natStr c ++ str "_DWI.nii.gz"

theorem determine_dwi {f : List Char} (pid : List Char) (c : Nat)
    (h : isDWIScan f = true) :
    determine_scan_type_and_bids_path f pid c = some (chunkName pid c, str "dwi") := by
  rw [isDWIScan, Bool.and_eq_true, Bool.not_eq_true'] at h
  simp [determine_scan_type_and_bids_path, h.1, h.2, chunkName]

theorem determine_not_dwi {f : List Char} (pid : List Char) (c : Nat)
    (h : isDWIScan f = false) :
    determine_scan_type_and_bids_path f pid c = none ∨
      ∃ t, determine_scan_type_and_bids_path f pid c = some (pid ++ t, str "anat") ∧
        occursB (str "DWI") t = false ∧ isPre (str "WI") t = false ∧
        isPre (str "I") t = false := by
  cases h1 : occursB (str "T2_SAG") f with
  | true =>
    right
    exact ⟨str "_T2.nii.gz", by simp [determine_scan_type_and_bids_path, h1],
      by decide, by decide, by decide⟩
  | false =>
    cases h2 : occursB (str "DTI_64DIR") f with
    | true => exact absurd h (by simp [isDWIScan, h1, h2])
    | false =>
      cases h3 : occursB (str "T1_SAG_MT_FL3D") f with
      | true =>
        right
        exact ⟨str "_mt-on_MTS.nii.gz",
          by simp [determine_scan_type_and_bids_path, h1, h2, h3],
          by decide, by decide, by decide⟩
      | false =>
        cases h4 : occursB (str "T1_SAG_FL3D") f with
        | true =>
          right
          exact ⟨str "_mt-off_MTS.nii.gz",
            by simp [determine_scan_type_and_bids_path, h1, h2, h3, h4],
            by decide, by decide, by decide⟩
        | false =>
          cases h5 : occursB (str "mp2rage_sag_p3_1mm_iso_T1") f with
          | true =>
            right
            exact ⟨str "_T1map.nii.gz",
              by simp [determine_scan_type_and_bids_path, h1, h2, h3, h4, h5],
              by decide, by decide, by decide⟩
          | false =>
            cases h6 : occursB (str "mp2rage_sag_p3_1mm_iso_UNI") f with
            | true =>
              right
              exact ⟨str "_UNIT1.nii.gz",
                by simp [determine_scan_type_and_bids_path, h1, h2, h3, h4, h5, h6],
                by decide, by decide, by decide⟩
            | false =>
              left
              simp [determine_scan_type_and_bids_path, h1, h2, h3, h4, h5, h6]

/-- Any classification's destination filename extends the subject id. -/
theorem determine_shape {f pid nf sub : List Char} {c : Nat}
    (h : determine_scan_type_and_bids_path f pid c = some (nf, sub)) :
    ∃ t, nf = pid ++ t := by
  unfold determine_scan_type_and_bids_path at h
  split at h
  · exact ⟨str "_T2.nii.gz", by injection h with h'; injection h' with h1 _; rw [← h1]⟩
  split at h
  · refine ⟨str "_chunk-" ++ natStr c ++ str "_DWI.nii.gz", ?_⟩
    injection h with h'
    injection h' with h1 _
    rw [← h1]
    simp [List.append_assoc]
  split at h
  · exact ⟨str "_mt-on_MTS.nii.gz", by injection h with h'; injection h' with h1 _; rw [← h1]⟩
  split at h
  · exact ⟨str "_mt-off_MTS.nii.gz", by injection h with h'; injection h' with h1 _; rw [← h1]⟩
  split at h
  · exact ⟨str "_T1map.nii.gz", by injection h with h'; injection h' with h1 _; rw [← h1]⟩
  split at h
  · exact ⟨str "_UNIT1.nii.gz", by injection h with h'; injection h' with h1 _; rw [← h1]⟩
  cases h

theorem dwi_split_cases {p1 p2 : List Char} (h : str "DWI" = p1 ++ p2)
    (h1 : p1 ≠ []) (h2 : p2 ≠ []) : p2 = str "WI" ∨ p2 = str "I" := by
  have h' : ('D' : Char) :: 'W' :: 'I' :: [] = p1 ++ p2 := by
    rw [show ('D' : Char) :: 'W' :: 'I' :: [] = str "DWI" by decide]
    exact h
  cases p1 with
  | nil => exact absurd rfl h1
  | cons a as =>
    rw [List.cons_append] at h'
    injection h' with ha h''
    cases as with
    | nil =>
      left
      rw [show str "WI" = ['W', 'I'] by decide]
      simpa using h''.symm
    | cons b bs =>
      rw [List.cons_append] at h''
      injection h'' with hb h₃
      cases bs with
      | nil =>
        right
        rw [show str "I" = ['I'] by decide]
        simpa using h₃.symm
      | cons d ds =>
        rw [List.cons_append] at h₃
        injection h₃ with hd h₄
        exact absurd (List.append_eq_nil.mp h₄.symm).2 h2

/-- If the subject id is "DWI"-free and the classification tail neither
contains "DWI" nor begins with a nonempty suffix of it, then the whole
destination filename is "DWI"-free. -/
theorem no_dwi_in_anat {pid t : List Char} (hpid : occursB (str "DWI") pid = false)
    (ht : occursB (str "DWI") t = false)
    (hw : isPre (str "WI") t = false) (hi : isPre (str "I") t = false) :
    occursB (str "DWI") (pid ++ t) = false := by
  by_contra hcon
  rw [Bool.not_eq_false] at hcon
  rcases occursB_append_split (by decide) hcon with h | h | ⟨p1, p2, hsep, h1, h2, _, y', hy⟩
  · rw [h] at hpid; cases hpid
  · rw [h] at ht; cases ht
  · rcases dwi_split_cases hsep h1 h2 with h3 | h3
    · subst h3
      have : isPre (str "WI") t = true := (isPre_iff _ _).mpr ⟨y', hy⟩
      rw [this] at hw; cases hw
    · subst h3
      have : isPre (str "I") t = true := (isPre_iff _ _).mpr ⟨y', hy⟩
      rw [this] at hi; cases hi

/-- A diffusion-classified, readable file: the pre-increment counter value
appears in the primary destination filename and the counter advances by one. -/
theorem processFile_dwi {gz : List Nat → List Nat} {fs : FS} {pid dp : List Char}
    {fns : List (List Char)} {f : List Char} {ctr : Nat} {c : List Nat}
    (hsuf : (str ".nii").isSuffixOf f = true) (hdwi : isDWIScan f = true)
    (hc : fs dp f = some c) (hfns : ∀ g ∈ fns, fs dp g ≠ none) :
    (processFile gz fs pid dp fns f ctr).2 = Except.ok (ctr + 1) ∧
      (processFile gz fs pid dp fns f ctr).1.head? =
        some ⟨[pid, str "dwi", chunkName pid ctr], gz c⟩ := by
  have hdet := determine_dwi pid ctr hdwi
  obtain ⟨wj, hwj⟩ := copyAssoc_ok (replaceL (str ".nii") (str ".json") f)
    [pid, str "dwi", replaceL (str ".nii.gz") (str ".json") (chunkName pid ctr)] hfns
  obtain ⟨wbval, hbval⟩ := copyAssoc_ok (replaceL (str ".nii") (str ".bval") f)
    [pid, str "dwi", replaceL (str ".nii.gz") (str ".bval") (chunkName pid ctr)] hfns
  obtain ⟨wbvec, hbvec⟩ := copyAssoc_ok (replaceL (str ".nii") (str ".bvec") f)
    [pid, str "dwi", replaceL (str ".nii.gz") (str ".bvec") (chunkName pid ctr)] hfns
  have hdw : occursB (str "DWI") (chunkName pid ctr) = true := by
    rw [chunkName, List.append_assoc]
    exact occursB_append_left _ (by decide)
      (occursB_append_left _ (by decide) (by decide))
  constructor
  · simp only [processFile, hsuf, if_true, hdet, hc, hwj, hdw, hbval, hbvec]
  · simp only [processFile, hsuf, if_true, hdet, hc, hwj, hdw, hbval, hbvec]
    simp

/-- A file that is not diffusion-classified leaves the counter unchanged,
provided the subject id itself is "DWI"-free. -/
theorem processFile_not_dwi {gz : List Nat → List Nat} {fs : FS} {pid dp : List Char}
    {fns : List (List Char)} {f : List Char} {ctr : Nat}
    (hpid : occursB (str "DWI") pid = false)
    (h : (str ".nii").isSuffixOf f = false ∨ isDWIScan f = false)
    (hf : fs dp f ≠ none) (hfns : ∀ g ∈ fns, fs dp g ≠ none) :
    (processFile gz fs pid dp fns f ctr).2 = Except.ok ctr := by
  by_cases hsuf : (str ".nii").isSuffixOf f = true
  · have hnd : isDWIScan f = false := by
      rcases h with h | h
      · rw [hsuf] at h; cases h
      · exact h
    rcases determine_not_dwi pid ctr hnd with hdet | ⟨t, hdet, ht, hw, hi⟩
    · simp only [processFile, hsuf, if_true, hdet]
    · cases hcf : fs dp f with
      | none => exact absurd hcf hf
      | some content =>
        obtain ⟨wj, hwj⟩ := copyAssoc_ok (replaceL (str ".nii") (str ".json") f)
          [pid, str "anat", replaceL (str ".nii.gz") (str ".json") (pid ++ t)] hfns
        have hnf : occursB (str "DWI") (pid ++ t) = false := no_dwi_in_anat hpid ht hw hi
        simp only [processFile, hsuf, if_true, hdet, hcf, hwj, hnf,
          Bool.false_eq_true, if_false]
  · rw [Bool.not_eq_true] at hsuf
    simp only [processFile, hsuf, Bool.false_eq_true, if_false]

/-- The predicate "this file will be diffusion-classified". -/
def isDiffFile (f : List Char) : Bool := (str ".nii").isSuffixOf f && isDWIScan f

/-- Over one directory: the counter advances by exactly the number of
diffusion-classified files, regardless of interleaved other modalities. -/
theorem processFileList_count {gz : List Nat → List Nat} {fs : FS} {pid dp : List Char}
    {fns : List (List Char)} {pending : List (List Char)} {ctr : Nat}
    (hpid : occursB (str "DWI") pid = false)
    (hp : ∀ f ∈ pending, fs dp f ≠ none) (hfns : ∀ g ∈ fns, fs dp g ≠ none) :
    (processFileList gz fs pid dp fns pending ctr).2 =
      Except.ok (ctr + pending.countP isDiffFile) := by
  induction pending generalizing ctr with
  | nil => simp [processFileList, List.countP, List.countP.go]
  | cons f rest ih =>
    have hf : fs dp f ≠ none := hp f (by simp)
    have hrest : ∀ g ∈ rest, fs dp g ≠ none := fun g hg => hp g (by simp [hg])
    by_cases hdiff : isDiffFile f = true
    · rw [isDiffFile, Bool.and_eq_true] at hdiff
      cases hcf : fs dp f with
      | none => exact absurd hcf hf
      | some c =>
        have h1 := (@processFile_dwi gz fs pid dp fns f ctr c
          hdiff.1 hdiff.2 hcf hfns).1
        have hpair : processFile gz fs pid dp fns f ctr
            = ((processFile gz fs pid dp fns f ctr).1, Except.ok (ctr + 1)) := by
          rw [← h1]
        rw [show (processFileList gz fs pid dp fns (f :: rest) ctr)
            = (match processFile gz fs pid dp fns f ctr with
              | (ws, Except.error e) => (ws, Except.error e)
              | (ws, Except.ok ctr') =>
                match processFileList gz fs pid dp fns rest ctr' with
                | (ws', r) => (ws ++ ws', r)) from rfl, hpair]
        show (processFileList gz fs pid dp fns rest (ctr + 1)).2 = _
        rw [ih hrest]
        have : (f :: rest).countP isDiffFile = rest.countP isDiffFile + 1 := by
          rw [List.countP_cons]
          simp [isDiffFile, hdiff.1, hdiff.2]
        rw [this]
        have : ctr + 1 + rest.countP isDiffFile = ctr + (rest.countP isDiffFile + 1) := by
          omega
        rw [this]
    · rw [Bool.not_eq_true, isDiffFile, Bool.and_eq_false_iff] at hdiff
      have h1 := @processFile_not_dwi gz fs pid dp fns f ctr hpid
        (by rcases hdiff with h | h
            · left; exact h
            · right; exact h) hf hfns
      have hpair : processFile gz fs pid dp fns f ctr
          = ((processFile gz fs pid dp fns f ctr).1, Except.ok ctr) := by
        rw [← h1]
      rw [show (processFileList gz fs pid dp fns (f :: rest) ctr)
          = (match processFile gz fs pid dp fns f ctr with
            | (ws, Except.error e) => (ws, Except.error e)
            | (ws, Except.ok ctr') =>
              match processFileList gz fs pid dp fns rest ctr' with
              | (ws', r) => (ws ++ ws', r)) from rfl, hpair]
      show (processFileList gz fs pid dp fns rest ctr).2 = _
      rw [ih hrest]
      have : (f :: rest).countP isDiffFile = rest.countP isDiffFile := by
        rw [List.countP_cons]
        rcases hdiff with h | h <;> simp [isDiffFile, h]
      rw [this]

/-- Over a whole subject walk: the counter advances by the total number of
diffusion-classified files, in traversal order. -/
theorem processWalk_count {gz : List Nat → List Nat} {fs : FS} {pid : List Char}
    {walk : List (List Char × List (List Char))} {ctr : Nat}
    (hpid : occursB (str "DWI") pid = false)
    (hreads : ∀ dp fns, (dp, fns) ∈ walk → ∀ f ∈ fns, fs dp f ≠ none) :
    (processWalk gz fs pid walk ctr).2 =
      Except.ok (ctr + (walk.map (fun e => e.2.countP isDiffFile)).sum) := by
  induction walk generalizing ctr with
  | nil => simp [processWalk]
  | cons e rest ih =>
    obtain ⟨dp, fns⟩ := e
    have hfns : ∀ f ∈ fns, fs dp f ≠ none := hreads dp fns (by simp)
    have h1 := @processFileList_count gz fs pid dp fns fns ctr hpid hfns hfns
    have hpair : processFileList gz fs pid dp fns fns ctr
        = ((processFileList gz fs pid dp fns fns ctr).1,
            Except.ok (ctr + fns.countP isDiffFile)) := by
      rw [← h1]
    rw [show (processWalk gz fs pid ((dp, fns) :: rest) ctr)
        = (match processFileList gz fs pid dp fns fns ctr with
          | (ws, Except.error e) => (ws, Except.error e)
          | (ws, Except.ok ctr') =>
            match processWalk gz fs pid rest ctr' with
            | (ws', r) => (ws ++ ws', r)) from rfl, hpair]
    show (processWalk gz fs pid rest (ctr + fns.countP isDiffFile)).2 = _
    rw [ih (fun dp' fns' hmem => hreads dp' fns' (by simp [hmem]))]
    have : ctr + fns.countP isDiffFile
          + (rest.map (fun e => e.2.countP isDiffFile)).sum
        = ctr + (((dp, fns) :: rest).map (fun e => e.2.countP isDiffFile)).sum := by
      simp
      omega
    rw [this]

/-- The orchestrator processes each subject directory with the chunk counter
freshly initialised to 1, independently of preceding directories. -/
theorem convert_cons_processed {gz : List Nat → List Nat} {fs : FS} {d : SubjectDir}
    {rest : List SubjectDir} {pid : List Char} {ws : List Write} {n : Nat}
    (hdir : d.isDir = true) (hpid : extract_patient_id d.name = Except.ok pid)
    (hnil : pid ≠ []) (hwalk : processWalk gz fs pid d.walk 1 = (ws, Except.ok n)) :
    convert_mri_to_bids gz fs (d :: rest)
      = (ws ++ (convert_mri_to_bids gz fs rest).1,
          (convert_mri_to_bids gz fs rest).2) := by
  cases hrest : convert_mri_to_bids gz fs rest with
  | mk ws' r =>
    simp only [convert_mri_to_bids, hdir, if_true, hpid, if_neg hnil, hwalk, hrest]

/-- Claim C3, amended : For every subject directory whose derived subject id
does not contain "DWI": the destination name of each diffusion-classified
file carries the pre-increment counter value, after which the counter is
incremented by one; files of any other kind (unrecognized, non-`.nii`, or
other modalities) leave the counter unchanged, so over a whole walk the
counter advances by exactly the number of diffusion files in traversal
order; and the orchestrator starts every subject directory at counter 1,
independent of preceding directories.  Hence the assigned chunk numbers are
1, 2, 3, … per subject.  (Without the "DWI"-free proviso the claim fails:
see the counterexample.) -/
theorem c3_chunk_numbering (gz : List Nat → List Nat) (fs : FS) (pid : List Char)
    (hpid : occursB (str "DWI") pid = false) :
    (∀ dp fns f ctr c, (str ".nii").isSuffixOf f = true → isDWIScan f = true →
        fs dp f = some c → (∀ g ∈ fns, fs dp g ≠ none) →
        (processFile gz fs pid dp fns f ctr).2 = Except.ok (ctr + 1) ∧
          (processFile gz fs pid dp fns f ctr).1.head? =
            some ⟨[pid, str "dwi", chunkName pid ctr], gz c⟩) ∧
    (∀ dp fns f ctr, ((str ".nii").isSuffixOf f = false ∨ isDWIScan f = false) →
        fs dp f ≠ none → (∀ g ∈ fns, fs dp g ≠ none) →
        (processFile gz fs pid dp fns f ctr).2 = Except.ok ctr) ∧
    (∀ walk ctr, (∀ dp fns, (dp, fns) ∈ walk → ∀ f ∈ fns, fs dp f ≠ none) →
        (processWalk gz fs pid walk ctr).2 =
          Except.ok (ctr + (walk.map (fun e => e.2.countP isDiffFile)).sum)) ∧
    (∀ d rest ws n, d.isDir = true → extract_patient_id d.name = Except.ok pid →
        pid ≠ [] → processWalk gz fs pid d.walk 1 = (ws, Except.ok n) →
        convert_mri_to_bids gz fs (d :: rest)
          = (ws ++ (convert_mri_to_bids gz fs rest).1,
              (convert_mri_to_bids gz fs rest).2)) := by
  refine ⟨?_, ?_, ?_, ?_⟩
  · intro dp fns f ctr c hsuf hdwi hc hfns
    exact processFile_dwi hsuf hdwi hc hfns
  · intro dp fns f ctr h hf hfns
    exact processFile_not_dwi hpid h hf hfns
  · intro walk ctr hreads
    exact processWalk_count hpid hreads
  · intro d rest ws n hdir hpd hnil hwalk
    exact convert_cons_processed hdir hpd hnil hwalk

/-- Witness for C3 at a concrete diffusion file with counter 1. -/
theorem c3_chunk_numbering_witness :
    (processFile (fun c => c) (fun _ _ => some [3]) (str "sub-LC164") (str "p")
        [str "DTI_64DIR_B.nii"] (str "DTI_64DIR_B.nii") 1).2 = Except.ok 2 ∧
      (processFile (fun c => c) (fun _ _ => some [3]) (str "sub-LC164") (str "p")
        [str "DTI_64DIR_B.nii"] (str "DTI_64DIR_B.nii") 1).1.head? =
        some ⟨[str "sub-LC164", str "dwi", chunkName (str "sub-LC164") 1], [3]⟩ :=
  (c3_chunk_numbering (fun c => c) (fun _ _ => some [3]) (str "sub-LC164")
      (by decide)).1
    (str "p") [str "DTI_64DIR_B.nii"] (str "DTI_64DIR_B.nii") 1 [3]
    (by decide) (by decide) rfl (fun g _ => by simp)

/-- Claim C3, counterexample : When the derived subject id itself contains
"DWI" (initials "DWI" are accepted by the patient grammar), a preceding
sagittal-T2 file increments the chunk counter, so the first diffusion file
in traversal order is numbered `chunk-2`, not `chunk-1`, falsifying "the
sequence numbers start at 1 … and are unaffected by files of other
modalities". -/
theorem c3_dwi_in_pid_counterexample :
    extract_patient_id (str "2020_09_16_ICEBERG_DWI_166_V3_M")
        = Except.ok (str "sub-DWI166") ∧
    convert_mri_to_bids (fun c => c) (fun _ _ => some [2])
        [⟨str "2020_09_16_ICEBERG_DWI_166_V3_M", true,
          [(str "p", [str "T2_SAG_A.nii", str "DTI_64DIR_B.nii"])]⟩]
      = ([⟨[str "sub-DWI166", str "anat", str "sub-DWI166_T2.nii.gz"], [2]⟩,
          ⟨[str "sub-DWI166", str "dwi", str "sub-DWI166_chunk-2_DWI.nii.gz"], [2]⟩],
          none) :=
  ⟨by decide, by decide⟩

/-- Claim C9 : The diffusion-specific handling is keyed on the substring "DWI"
occurring anywhere in the constructed destination filename, which starts
with the subject id: whenever the derived id contains "DWI", every
classified file — of any modality — has "DWI" in its destination filename,
increments the per-subject chunk counter, and receives the auxiliary-file
treatment (a present, readable `.bval` companion is copied under the renamed
base). -/
theorem c9_dwi_in_pid_triggers_all (gz : List Nat → List Nat) (fs : FS)
    (pid dp : List Char) (fns : List (List Char)) (f nf sub : List Char)
    (ctr : Nat) (c cb : List Nat)
    (hpid : occursB (str "DWI") pid = true)
    (hsuf : (str ".nii").isSuffixOf f = true)
    (hdet : determine_scan_type_and_bids_path f pid ctr = some (nf, sub))
    (hc : fs dp f = some c)
    (hfns : ∀ g ∈ fns, fs dp g ≠ none) :
    occursB (str "DWI") nf = true ∧
    (processFile gz fs pid dp fns f ctr).2 = Except.ok (ctr + 1) ∧
    (replaceL (str ".nii") (str ".bval") f ∈ fns →
      fs dp (replaceL (str ".nii") (str ".bval") f) = some cb →
      (⟨[pid, sub, replaceL (str ".nii.gz") (str ".bval") nf], cb⟩ : Write)
        ∈ (processFile gz fs pid dp fns f ctr).1) := by
  obtain ⟨t, ht⟩ := determine_shape hdet
  have hnf : occursB (str "DWI") nf = true := by
    rw [ht]
    exact occursB_append_right t (by decide) hpid
  obtain ⟨wj, hwj⟩ := copyAssoc_ok (replaceL (str ".nii") (str ".json") f)
    [pid, sub, replaceL (str ".nii.gz") (str ".json") nf] hfns
  obtain ⟨wbvec, hbvec⟩ := copyAssoc_ok (replaceL (str ".nii") (str ".bvec") f)
    [pid, sub, replaceL (str ".nii.gz") (str ".bvec") nf] hfns
  refine ⟨hnf, ?_, ?_⟩
  · obtain ⟨wbval, hbval⟩ := copyAssoc_ok (replaceL (str ".nii") (str ".bval") f)
      [pid, sub, replaceL (str ".nii.gz") (str ".bval") nf] hfns
    simp only [processFile, hsuf, if_true, hdet, hc, hwj, hnf, hbval, hbvec]
  · intro hbv hcb
    have hbval2 : copyAssoc fs dp fns (replaceL (str ".nii") (str ".bval") f)
        [pid, sub, replaceL (str ".nii.gz") (str ".bval") nf]
        = ([⟨[pid, sub, replaceL (str ".nii.gz") (str ".bval") nf], cb⟩], none) := by
      unfold copyAssoc
      rw [if_pos hbv, hcb]
    simp only [processFile, hsuf, if_true, hdet, hc, hwj, hnf, hbval2, hbvec]
    simp

/-- Witness for C9: a sagittal-T2 (non-diffusion) file of subject
`sub-DWI166` increments the chunk counter and gets its `.bval` companion
copied. -/
theorem c9_dwi_in_pid_witness :
    occursB (str "DWI") (str "sub-DWI166_T2.nii.gz") = true ∧
    (processFile (fun c => c)
        (fun _ g => if g = str "T2_SAG_A.bval" then some [9] else some [2])
        (str "sub-DWI166") (str "p") [str "T2_SAG_A.nii", str "T2_SAG_A.bval"]
        (str "T2_SAG_A.nii") 1).2 = Except.ok 2 ∧
    (⟨[str "sub-DWI166", str "anat", str "sub-DWI166_T2.bval"], [9]⟩ : Write)
      ∈ (processFile (fun c => c)
        (fun _ g => if g = str "T2_SAG_A.bval" then some [9] else some [2])
        (str "sub-DWI166") (str "p") [str "T2_SAG_A.nii", str "T2_SAG_A.bval"]
        (str "T2_SAG_A.nii") 1).1 := by
  have h := c9_dwi_in_pid_triggers_all (fun c => c)
    (fun _ g => if g = str "T2_SAG_A.bval" then some [9] else some [2])
    (str "sub-DWI166") (str "p") [str "T2_SAG_A.nii", str "T2_SAG_A.bval"]
    (str "T2_SAG_A.nii") (str "sub-DWI166_T2.nii.gz") (str "anat") 1 [2] [9]
    (by decide) (by decide) (by decide) (by decide)
    (by intro g hg
        by_cases hgg : g = str "T2_SAG_A.bval" <;> simp [hgg])
  refine ⟨h.1, h.2.1, ?_⟩
  have h3 := h.2.2 (by decide) (by decide)
  have : replaceL (str ".nii.gz") (str ".bval") (str "sub-DWI166_T2.nii.gz")
      = str "sub-DWI166_T2.bval" := by decide
  rw [this] at h3
  exact h3

/-! ## Claim C6 : the metadata sidecar copy -/

theorem isSuffixOf_append (x b : List Char) : x.isSuffixOf (b ++ x) = true := by
  rw [List.isSuffixOf_iff_suffix]
  exact List.suffix_append b x

/-- Claim C6, amended : For every classified and transferred primary file
whose raw filename contains ".nii" only as its final extension, if a
metadata sidecar with the same base name exists in the same source directory
(and is readable), it is copied to the destination with content identical to
the source sidecar, under the destination primary's base plus the sidecar's
own extension.  (In general the code looks up the name obtained by replacing
every occurrence of ".nii" with ".json", which differs from the same-base
sidecar when ".nii" occurs earlier in the filename: see the
counterexample.) -/
theorem c6_sidecar_copied (gz : List Nat → List Nat) (fs : FS)
    (pid dp base nb nf sub : List Char) (fns : List (List Char)) (ctr : Nat)
    (cj : List Nat)
    (hbase : occursB (str ".nii") (base ++ (str ".nii").dropLast) = false)
    (hdet : determine_scan_type_and_bids_path (base ++ str ".nii") pid ctr
      = some (nf, sub))
    (hnb : nf = nb ++ str ".nii.gz")
    (hnb2 : occursB (str ".nii.gz") (nb ++ (str ".nii.gz").dropLast) = false)
    (hjs : (base ++ str ".json") ∈ fns)
    (hcp : fs dp (base ++ str ".nii") ≠ none)
    (hcj : fs dp (base ++ str ".json") = some cj) :
    (⟨[pid, sub, nb ++ str ".json"], cj⟩ : Write)
      ∈ (processFile gz fs pid dp fns (base ++ str ".nii") ctr).1 := by
  have hsuf : (str ".nii").isSuffixOf (base ++ str ".nii") = true :=
    isSuffixOf_append _ base
  have hjn : replaceL (str ".nii") (str ".json") (base ++ str ".nii")
      = base ++ str ".json" := by
    have := @replaceL_marked (str ".nii") (str ".json") base []
      (by decide) hbase (by decide)
    simpa using this
  have hrn : replaceL (str ".nii.gz") (str ".json") nf = nb ++ str ".json" := by
    rw [hnb]
    have := @replaceL_marked (str ".nii.gz") (str ".json") nb []
      (by decide) hnb2 (by decide)
    simpa using this
  have hwj : copyAssoc fs dp fns
      (replaceL (str ".nii") (str ".json") (base ++ str ".nii"))
      [pid, sub, replaceL (str ".nii.gz") (str ".json") nf]
      = ([⟨[pid, sub, nb ++ str ".json"], cj⟩], none) := by
    rw [hjn, hrn]
    unfold copyAssoc
    rw [if_pos hjs, hcj]
  cases hcp' : fs dp (base ++ str ".nii") with
  | none => exact absurd hcp' hcp
  | some cp =>
    by_cases hdwi : occursB (str "DWI") nf = true
    · cases hbv : copyAssoc fs dp fns
        (replaceL (str ".nii") (str ".bval") (base ++ str ".nii"))
        [pid, sub, replaceL (str ".nii.gz") (str ".bval") nf] with
      | mk wbval e1 =>
        cases e1 with
        | some e =>
          simp only [processFile, hsuf, if_true, hdet, hcp', hwj, hdwi, hbv]
          simp
        | none =>
          cases hbc : copyAssoc fs dp fns
              (replaceL (str ".nii") (str ".bvec") (base ++ str ".nii"))
              [pid, sub, replaceL (str ".nii.gz") (str ".bvec") nf] with
          | mk wbvec e2 =>
            cases e2 with
            | some e =>
              simp only [processFile, hsuf, if_true, hdet, hcp', hwj, hdwi, hbv, hbc]
              simp
            | none =>
              simp only [processFile, hsuf, if_true, hdet, hcp', hwj, hdwi, hbv, hbc]
              simp
    · rw [Bool.not_eq_true] at hdwi
      simp only [processFile, hsuf, if_true, hdet, hcp', hwj, hdwi,
        Bool.false_eq_true, if_false]
      simp

/-- Witness for C6 at a concrete anatomical file with its sidecar. -/
theorem c6_sidecar_copied_witness :
    (⟨[str "sub-LC164", str "anat", str "sub-LC164_T2.json"], [5]⟩ : Write)
      ∈ (processFile (fun c => c)
          (fun _ g => if g = str "T2_SAG_A.json" then some [5] else some [1])
          (str "sub-LC164") (str "p") [str "T2_SAG_A.nii", str "T2_SAG_A.json"]
          (str "T2_SAG_A.nii") 1).1 := by
  have h := c6_sidecar_copied (fun c => c)
    (fun _ g => if g = str "T2_SAG_A.json" then some [5] else some [1])
    (str "sub-LC164") (str "p") (str "T2_SAG_A") (str "sub-LC164_T2")
    (str "sub-LC164_T2.nii.gz") (str "anat")
    [str "T2_SAG_A.nii", str "T2_SAG_A.json"] 1 [5]
    (by decide) (by decide) (by decide) (by decide) (by decide) (by decide) (by decide)
  have h1 : str "T2_SAG_A" ++ str ".nii" = str "T2_SAG_A.nii" := by decide
  have h2 : str "sub-LC164_T2" ++ str ".json" = str "sub-LC164_T2.json" := by decide
  rw [h1, h2] at h
  exact h

/-- Claim C6, counterexample : A classified primary named `T2_SAG.nii.x.nii`
has its same-base sidecar `T2_SAG.nii.x.json` present in the source
directory, yet the code looks for `T2_SAG.json.x.json` (`str.replace`
replaces every ".nii" occurrence) and copies nothing: the only write is the
primary, falsifying the claim for this input. -/
theorem c6_sidecar_counterexample :
    (str "T2_SAG.nii.x.json") ∈ [str "T2_SAG.nii.x.nii", str "T2_SAG.nii.x.json"] ∧
    replaceL (str ".nii") (str ".json") (str "T2_SAG.nii.x.nii")
      = str "T2_SAG.json.x.json" ∧
    processFile (fun c => c)
        (fun _ g => if g = str "T2_SAG.nii.x.nii" then some [1] else some [5])
        (str "sub-LC164") (str "p") [str "T2_SAG.nii.x.nii", str "T2_SAG.nii.x.json"]
        (str "T2_SAG.nii.x.nii") 1
      = ([⟨[str "sub-LC164", str "anat", str "sub-LC164_T2.nii.gz"], [1]⟩],
          Except.ok 1) :=
  ⟨by decide, by decide, by decide⟩

/-! ## Claim C8 : idempotence of the conversion -/

/-- The last write to path `p` in `ws`, if any (later writes win). -/
def lastWrite : List Write → List (List Char) → Option (List Nat)
  | [], _ => none
  | w :: ws, p =>
    match lastWrite ws p with
    | some c => some c
    | none => if p = w.path then some w.content else none

theorem applyWrites_apply (ws : List Write)
    (dest : List (List Char) → Option (List Nat)) (p : List (List Char)) :
    applyWrites ws dest p
      = match lastWrite ws p with
        | some c => some c
        | none => dest p := by
  induction ws generalizing dest with
  | nil => rfl
  | cons w ws ih =>
    show applyWrites ws (fun q => if q = w.path then some w.content else dest q) p = _
    rw [ih]
    cases hlw : lastWrite ws p with
    | some c => simp [lastWrite, hlw]
    | none =>
      simp only [lastWrite, hlw]
      by_cases hp : p = w.path <;> simp [hp]

/-- The bytes `gzip.open(dest, 'wb')` produces for payload `c` when the
member header is written at wall-clock second `t`: the fixed
magic/method/flags bytes, the 4-byte little-endian MTIME field holding `t`
(`GzipFile._write_gzip_header` fills it from `time.time()` when no explicit
mtime is given, as in `zip_and_move_nifti`), then the remainder of the
member (XFL/OS bytes, deflate stream, CRC and length trailer), abstracted
as `deflate c` since it depends only on the payload bytes at a fixed
compression level.  The FNAME header field, derived from the destination
basename, is identical across runs for a given destination file and is
omitted. -/
def gzipBytes (deflate : List Nat → List Nat) (t : Nat) (c : List Nat) : List Nat :=
  [31, 139, 8, 0, t % 256, t / 256 % 256, t / 65536 % 256, t / 16777216 % 256]
    ++ deflate c

/-- Zero out the MTIME field (bytes 4-7) of a gzip member; byte strings not
starting with the gzip magic are left unchanged. -/
def scrubMtime (c : List Nat) : List Nat :=
  if c.take 4 = [31, 139, 8, 0] then c.take 4 ++ [0, 0, 0, 0] ++ c.drop 8 else c

theorem scrubMtime_gzipBytes (deflate : List Nat → List Nat) (t : Nat)
    (c : List Nat) :
    scrubMtime (gzipBytes deflate t c)
      = [31, 139, 8, 0, 0, 0, 0, 0] ++ deflate c := rfl

/-- Two destination writes that agree up to the gzip MTIME field. -/
def writeSim (w1 w2 : Write) : Prop :=
  w1.path = w2.path ∧ scrubMtime w1.content = scrubMtime w2.content

theorem writeSim_refl (w : Write) : writeSim w w := ⟨rfl, rfl⟩

theorem forall₂_writeSim_refl (ws : List Write) : List.Forall₂ writeSim ws ws := by
  induction ws with
  | nil => exact List.Forall₂.nil
  | cons w ws ih => exact List.Forall₂.cons (writeSim_refl w) ih

theorem forall₂_writeSim_append {l1 l2 u1 u2 : List Write}
    (h : List.Forall₂ writeSim l1 l2) (h' : List.Forall₂ writeSim u1 u2) :
    List.Forall₂ writeSim (l1 ++ u1) (l2 ++ u2) := by
  induction h with
  | nil => exact h'
  | cons hw _ ih => exact List.Forall₂.cons hw ih

theorem forall₂_writeSim_paths {ws1 ws2 : List Write}
    (h : List.Forall₂ writeSim ws1 ws2) :
    ws1.map (fun w => w.path) = ws2.map (fun w => w.path) := by
  induction h with
  | nil => rfl
  | cons hw _ ih => simp [hw.1, ih]

/-- Two runs whose compression functions agree up to the MTIME field
perform per-file writes that agree up to the MTIME field, with the same
control flow. -/
theorem processFile_sim {g1 g2 : List Nat → List Nat}
    (hg : ∀ c, scrubMtime (g1 c) = scrubMtime (g2 c))
    (fs : FS) (pid dp : List Char) (fns : List (List Char)) (f : List Char)
    (ctr : Nat) :
    List.Forall₂ writeSim (processFile g1 fs pid dp fns f ctr).1
        (processFile g2 fs pid dp fns f ctr).1 ∧
      (processFile g1 fs pid dp fns f ctr).2
        = (processFile g2 fs pid dp fns f ctr).2 := by
  by_cases hsuf : (str ".nii").isSuffixOf f = true
  · cases hdet : determine_scan_type_and_bids_path f pid ctr with
    | none =>
      simp only [processFile, hsuf, if_true, hdet]
      exact ⟨List.Forall₂.nil, trivial⟩
    | some p =>
      obtain ⟨nf, sub⟩ := p
      cases hc : fs dp f with
      | none =>
        simp only [processFile, hsuf, if_true, hdet, hc]
        exact ⟨List.Forall₂.nil, trivial⟩
      | some content =>
        have hw : writeSim ⟨[pid, sub, nf], g1 content⟩ ⟨[pid, sub, nf], g2 content⟩ :=
          ⟨rfl, hg content⟩
        cases hja : copyAssoc fs dp fns (replaceL (str ".nii") (str ".json") f)
            [pid, sub, replaceL (str ".nii.gz") (str ".json") nf] with
        | mk wj ej =>
          cases ej with
          | some e =>
            simp only [processFile, hsuf, if_true, hdet, hc, hja]
            exact ⟨List.Forall₂.cons hw (forall₂_writeSim_refl wj), trivial⟩
          | none =>
            by_cases hdwi : occursB (str "DWI") nf = true
            · cases hbv : copyAssoc fs dp fns
                  (replaceL (str ".nii") (str ".bval") f)
                  [pid, sub, replaceL (str ".nii.gz") (str ".bval") nf] with
              | mk wbval e1 =>
                cases e1 with
                | some e =>
                  simp only [processFile, hsuf, if_true, hdet, hc, hja, hdwi, hbv]
                  exact ⟨List.Forall₂.cons hw (forall₂_writeSim_refl (wj ++ wbval)), trivial⟩
                | none =>
                  cases hbc : copyAssoc fs dp fns
                      (replaceL (str ".nii") (str ".bvec") f)
                      [pid, sub, replaceL (str ".nii.gz") (str ".bvec") nf] with
                  | mk wbvec e2 =>
                    cases e2 with
                    | some e =>
                      simp only [processFile, hsuf, if_true, hdet, hc, hja, hdwi,
                        hbv, hbc]
                      exact ⟨List.Forall₂.cons hw
                        (forall₂_writeSim_refl (wj ++ wbval ++ wbvec)), trivial⟩
                    | none =>
                      simp only [processFile, hsuf, if_true, hdet, hc, hja, hdwi,
                        hbv, hbc]
                      exact ⟨List.Forall₂.cons hw
                        (forall₂_writeSim_refl (wj ++ wbval ++ wbvec)), trivial⟩
            · rw [Bool.not_eq_true] at hdwi
              simp only [processFile, hsuf, if_true, hdet, hc, hja, hdwi,
                Bool.false_eq_true, if_false]
              exact ⟨List.Forall₂.cons hw (forall₂_writeSim_refl wj), trivial⟩
  · rw [Bool.not_eq_true] at hsuf
    simp only [processFile, hsuf, Bool.false_eq_true, if_false]
    exact ⟨List.Forall₂.nil, trivial⟩

theorem processFileList_sim {g1 g2 : List Nat → List Nat}
    (hg : ∀ c, scrubMtime (g1 c) = scrubMtime (g2 c))
    (fs : FS) (pid dp : List Char) (fns : List (List Char))
    (pending : List (List Char)) (ctr : Nat) :
    List.Forall₂ writeSim (processFileList g1 fs pid dp fns pending ctr).1
        (processFileList g2 fs pid dp fns pending ctr).1 ∧
      (processFileList g1 fs pid dp fns pending ctr).2
        = (processFileList g2 fs pid dp fns pending ctr).2 := by
  induction pending generalizing ctr with
  | nil => exact ⟨List.Forall₂.nil, rfl⟩
  | cons f rest ih =>
    have hf := processFile_sim hg fs pid dp fns f ctr
    cases h1 : processFile g1 fs pid dp fns f ctr with
    | mk ws1 r1 =>
      cases h2 : processFile g2 fs pid dp fns f ctr with
      | mk ws2 r2 =>
        rw [h1, h2] at hf
        simp only at hf
        obtain ⟨hws, hr⟩ := hf
        subst hr
        cases r1 with
        | error e =>
          simp only [processFileList, h1, h2]
          exact ⟨hws, trivial⟩
        | ok ctr' =>
          have htail := @ih ctr'
          cases h3 : processFileList g1 fs pid dp fns rest ctr' with
          | mk ws1' r1' =>
            cases h4 : processFileList g2 fs pid dp fns rest ctr' with
            | mk ws2' r2' =>
              rw [h3, h4] at htail
              simp only at htail
              simp only [processFileList, h1, h2, h3, h4]
              exact ⟨forall₂_writeSim_append hws htail.1, htail.2⟩

theorem processWalk_sim {g1 g2 : List Nat → List Nat}
    (hg : ∀ c, scrubMtime (g1 c) = scrubMtime (g2 c))
    (fs : FS) (pid : List Char)
    (walk : List (List Char × List (List Char))) (ctr : Nat) :
    List.Forall₂ writeSim (processWalk g1 fs pid walk ctr).1
        (processWalk g2 fs pid walk ctr).1 ∧
      (processWalk g1 fs pid walk ctr).2 = (processWalk g2 fs pid walk ctr).2 := by
  induction walk generalizing ctr with
  | nil => exact ⟨List.Forall₂.nil, rfl⟩
  | cons e rest ih =>
    obtain ⟨dp, fns⟩ := e
    have hf := processFileList_sim hg fs pid dp fns fns ctr
    cases h1 : processFileList g1 fs pid dp fns fns ctr with
    | mk ws1 r1 =>
      cases h2 : processFileList g2 fs pid dp fns fns ctr with
      | mk ws2 r2 =>
        rw [h1, h2] at hf
        simp only at hf
        obtain ⟨hws, hr⟩ := hf
        subst hr
        cases r1 with
        | error e' =>
          simp only [processWalk, h1, h2]
          exact ⟨hws, trivial⟩
        | ok ctr' =>
          have htail := @ih ctr'
          cases h3 : processWalk g1 fs pid rest ctr' with
          | mk ws1' r1' =>
            cases h4 : processWalk g2 fs pid rest ctr' with
            | mk ws2' r2' =>
              rw [h3, h4] at htail
              simp only at htail
              simp only [processWalk, h1, h2, h3, h4]
              exact ⟨forall₂_writeSim_append hws htail.1, htail.2⟩

theorem convert_sim {g1 g2 : List Nat → List Nat}
    (hg : ∀ c, scrubMtime (g1 c) = scrubMtime (g2 c))
    (fs : FS) (dirs : List SubjectDir) :
    List.Forall₂ writeSim (convert_mri_to_bids g1 fs dirs).1
        (convert_mri_to_bids g2 fs dirs).1 ∧
      (convert_mri_to_bids g1 fs dirs).2 = (convert_mri_to_bids g2 fs dirs).2 := by
  induction dirs with
  | nil => exact ⟨List.Forall₂.nil, rfl⟩
  | cons d rest ih =>
    by_cases hdir : d.isDir = true
    · cases hpid : extract_patient_id d.name with
      | error e =>
        simp only [convert_mri_to_bids, hdir, if_true, hpid]
        exact ⟨List.Forall₂.nil, trivial⟩
      | ok pid =>
        by_cases hnil : pid = []
        · simp only [convert_mri_to_bids, hdir, if_true, hpid, hnil, if_pos rfl]
          exact ih
        · have hw := processWalk_sim hg fs pid d.walk 1
          cases h1 : processWalk g1 fs pid d.walk 1 with
          | mk ws1 r1 =>
            cases h2 : processWalk g2 fs pid d.walk 1 with
            | mk ws2 r2 =>
              rw [h1, h2] at hw
              simp only at hw
              obtain ⟨hws, hr⟩ := hw
              subst hr
              cases r1 with
              | error e =>
                simp only [convert_mri_to_bids, hdir, if_true, hpid, if_neg hnil,
                  h1, h2]
                exact ⟨hws, trivial⟩
              | ok n =>
                cases h3 : convert_mri_to_bids g1 fs rest with
                | mk ws1' r1' =>
                  cases h4 : convert_mri_to_bids g2 fs rest with
                  | mk ws2' r2' =>
                    rw [h3, h4] at ih
                    simp only at ih
                    simp only [convert_mri_to_bids, hdir, if_true, hpid,
                      if_neg hnil, h1, h2, h3, h4]
                    exact ⟨forall₂_writeSim_append hws ih.1, ih.2⟩
    · rw [Bool.not_eq_true] at hdir
      simp only [convert_mri_to_bids, hdir, Bool.false_eq_true, if_false]
      exact ih

theorem lastWrite_sim {ws1 ws2 : List Write}
    (h : List.Forall₂ writeSim ws1 ws2) (p : List (List Char)) :
    Option.map scrubMtime (lastWrite ws1 p)
      = Option.map scrubMtime (lastWrite ws2 p) := by
  induction h with
  | nil => rfl
  | @cons w1 w2 l1 l2 hw _ ih =>
    simp only [lastWrite]
    cases h1 : lastWrite l1 p with
    | some c1 =>
      rw [h1] at ih
      cases h2 : lastWrite l2 p with
      | none => rw [h2] at ih; simp at ih
      | some c2 =>
        rw [h2] at ih
        simpa using ih
    | none =>
      rw [h1] at ih
      cases h2 : lastWrite l2 p with
      | some c2 => rw [h2] at ih; simp at ih
      | none =>
        rw [hw.1]
        by_cases hp : p = w2.path
        · simp [hp, hw.2]
        · simp [hp]

theorem applyWrites_sim {ws1 ws2 : List Write}
    (h : List.Forall₂ writeSim ws1 ws2)
    (dest : List (List Char) → Option (List Nat)) (p : List (List Char)) :
    Option.map scrubMtime (applyWrites ws2 (applyWrites ws1 dest) p)
      = Option.map scrubMtime (applyWrites ws1 dest p) := by
  have hls := lastWrite_sim h p
  rw [applyWrites_apply, applyWrites_apply]
  cases h1 : lastWrite ws1 p with
  | some c1 =>
    cases h2 : lastWrite ws2 p with
    | none =>
      rw [h1, h2] at hls
    | some c2 =>
      rw [h1, h2] at hls
      simpa using hls.symm
  | none =>
    cases h2 : lastWrite ws2 p with
    | some c2 =>
      rw [h1, h2] at hls
      simp at hls
    | none => rfl

/-- Claim C8, counterexample : two runs of the conversion over the same
input and output roots, the second at wall-clock second 1 and the first at
second 0, leave different bytes in the same destination file
`sub-LC164/anat/sub-LC164_T2.nii.gz` (the gzip header's MTIME field holds
the run's time), falsifying "every destination file is overwritten with
identical content on the second run". -/
theorem c8_mtime_counterexample :
    (applyWrites (convert_mri_to_bids (gzipBytes (fun c => c) 1)
          (fun _ _ => some [7])
          [⟨str "2020_10_28_ICEBERG_LC_164_V3_M", true,
            [(str "p", [str "T2_SAG_A.nii"])]⟩]).1
        (applyWrites (convert_mri_to_bids (gzipBytes (fun c => c) 0)
            (fun _ _ => some [7])
            [⟨str "2020_10_28_ICEBERG_LC_164_V3_M", true,
              [(str "p", [str "T2_SAG_A.nii"])]⟩]).1
          (fun _ => none)))
        [str "sub-LC164", str "anat", str "sub-LC164_T2.nii.gz"]
      = some [31, 139, 8, 0, 1, 0, 0, 0, 7] ∧
    (applyWrites (convert_mri_to_bids (gzipBytes (fun c => c) 0)
          (fun _ _ => some [7])
          [⟨str "2020_10_28_ICEBERG_LC_164_V3_M", true,
            [(str "p", [str "T2_SAG_A.nii"])]⟩]).1
        (fun _ => none))
        [str "sub-LC164", str "anat", str "sub-LC164_T2.nii.gz"]
      = some [31, 139, 8, 0, 0, 0, 0, 0, 7] :=
  ⟨by decide, by decide⟩

/-- Claim C8, amended : running the conversion twice on the same input root
and output root writes to exactly the same destination paths with the same
termination outcome; the final output tree after the second run equals the
tree after the first run up to the 4-byte MTIME field of the gzip header
(which `gzip.open` fills with the run's wall-clock time — sidecar and
auxiliary copies, which are not gzipped, are overwritten byte-identically);
and the trees are byte-identical whenever the two runs' header timestamps
coincide. -/
theorem c8_idempotent_up_to_mtime (deflate : List Nat → List Nat) (t1 t2 : Nat)
    (fs : FS) (dirs : List SubjectDir)
    (dest : List (List Char) → Option (List Nat)) :
    ((convert_mri_to_bids (gzipBytes deflate t1) fs dirs).1.map (fun w => w.path)
      = (convert_mri_to_bids (gzipBytes deflate t2) fs dirs).1.map (fun w => w.path)) ∧
    (convert_mri_to_bids (gzipBytes deflate t1) fs dirs).2
      = (convert_mri_to_bids (gzipBytes deflate t2) fs dirs).2 ∧
    (∀ p, Option.map scrubMtime
        (applyWrites (convert_mri_to_bids (gzipBytes deflate t2) fs dirs).1
          (applyWrites (convert_mri_to_bids (gzipBytes deflate t1) fs dirs).1 dest) p)
      = Option.map scrubMtime
          (applyWrites (convert_mri_to_bids (gzipBytes deflate t1) fs dirs).1 dest p)) ∧
    (t1 = t2 →
      applyWrites (convert_mri_to_bids (gzipBytes deflate t2) fs dirs).1
          (applyWrites (convert_mri_to_bids (gzipBytes deflate t1) fs dirs).1 dest)
        = applyWrites (convert_mri_to_bids (gzipBytes deflate t1) fs dirs).1 dest) := by
  have hg : ∀ c, scrubMtime (gzipBytes deflate t1 c)
      = scrubMtime (gzipBytes deflate t2 c) := by
    intro c
    rw [scrubMtime_gzipBytes, scrubMtime_gzipBytes]
  have hsim := convert_sim hg fs dirs
  refine ⟨forall₂_writeSim_paths hsim.1, hsim.2, applyWrites_sim hsim.1 dest, ?_⟩
  intro ht
  subst ht
  funext p
  rw [applyWrites_apply, applyWrites_apply]
  cases hlw : lastWrite (convert_mri_to_bids (gzipBytes deflate t1) fs dirs).1 p with
  | some c => simp [hlw]
  | none => simp [hlw]

/-- Witness for C8: with coinciding run timestamps the second run reproduces
the first run's tree byte for byte. -/
theorem c8_idempotent_up_to_mtime_witness :
    applyWrites (convert_mri_to_bids (gzipBytes (fun c => c) 0)
          (fun _ _ => some [7])
          [⟨str "2020_10_28_ICEBERG_LC_164_V3_M", true,
            [(str "p", [str "T2_SAG_A.nii"])]⟩]).1
        (applyWrites (convert_mri_to_bids (gzipBytes (fun c => c) 0)
            (fun _ _ => some [7])
            [⟨str "2020_10_28_ICEBERG_LC_164_V3_M", true,
              [(str "p", [str "T2_SAG_A.nii"])]⟩]).1
          (fun _ => none))
      = applyWrites (convert_mri_to_bids (gzipBytes (fun c => c) 0)
            (fun _ _ => some [7])
            [⟨str "2020_10_28_ICEBERG_LC_164_V3_M", true,
              [(str "p", [str "T2_SAG_A.nii"])]⟩]).1
          (fun _ => none) :=
  (c8_idempotent_up_to_mtime (fun c => c) 0 0
      (fun _ _ => some [7])
      [⟨str "2020_10_28_ICEBERG_LC_164_V3_M", true,
        [(str "p", [str "T2_SAG_A.nii"])]⟩]
      (fun _ => none)).2.2.2 rfl

/-! ## Embedding of `aggregate_chunks.py` -/

/-- One input CSV row with the columns `aggregate_data` uses: `Filename`,
`VertLevel` (as the string pandas sees), `Size [vox]`, `MAP()`, `STD()`.
The numeric columns are modelled as rationals. -/
structure CsvRow where
  filename : List Char
  vertLevel : List Char
  size : ℚ
  mapv : ℚ
  stdv : ℚ
deriving DecidableEq

/-- The regex character class `[^_/]`. -/
def subjChar (c : Char) : Bool := !(c == '_' || c == '/')

/-- First match of the regex `(sub-[^_/]+)` in `s`, as
`Series.str.extract` computes it: scan left to right, and at the first
position where "sub-" is followed by at least one `[^_/]` character return
"sub-" plus the maximal (greedy) run of such characters; `none` (pandas
`NaN`) when no position matches. -/
def findSub : List Char → Option (List Char)
  | [] => none
  | c :: rest =>
    if isPre (str "sub-") (c :: rest)
        && !(((c :: rest).drop 4).takeWhile subjChar).isEmpty then
      some (str "sub-" ++ ((c :: rest).drop 4).takeWhile subjChar)
    else findSub rest

/-- Decimal digit value. -/
def digitVal (c : Char) : Nat := c.toNat - '0'.toNat

/-- Parse a non-empty all-digit string. -/
def parseNat (s : List Char) : Option Nat :=
  if s ≠ [] ∧ ∀ c ∈ s, c.isDigit = true then
    some (s.foldl (fun acc c => 10 * acc + digitVal c) 0)
  else none

/-- Parse a decimal integer literal (optional leading minus), modelling
`astype(int)` on one cell; `none` models the raised conversion error. -/
def parseIntL : List Char → Option Int
  | '-' :: rest => (parseNat rest).map (fun n => -(n : Int))
  | s => (parseNat s).map (fun n => (n : Int))

/-- An expanded row: one ':'-separated vertebral-level component together
with its originating row's extracted subject and numeric columns. -/
structure PRow where
  subj : Option (List Char)
  lvl : List Char
  size : ℚ
  mapv : ℚ
  stdv : ℚ
deriving DecidableEq

/-- An expanded row after `astype(int)` on the level. -/
structure IRow where
  subj : Option (List Char)
  lvl : Int
  size : ℚ
  mapv : ℚ
  stdv : ℚ
deriving DecidableEq

/-- One output row of the aggregation. -/
structure AggRow where
  subject : List Char
  level : Int
  size : ℚ
  mapv : ℚ
  stdv : ℚ
deriving DecidableEq

/-- Subject extraction plus the split/stack/join range expansion (lines
18-27): one row per ':'-separated component of `VertLevel`. -/
def expandRows (rows : List CsvRow) : List PRow :=
  rows.flatMap (fun r => (splitOnL (str ":") r.vertLevel).map
    (fun p => ⟨findSub r.filename, p, r.size, r.mapv, r.stdv⟩))

/-- Elementwise fallible map; the first failure raises (as `astype` does). -/
def exceptMap (f : PRow → Except PyErr IRow) : List PRow → Except PyErr (List IRow)
  | [] => Except.ok []
  | x :: xs =>
    match f x with
    | Except.error e => Except.error e
    | Except.ok y =>
      match exceptMap f xs with
      | Except.error e => Except.error e
      | Except.ok ys => Except.ok (y :: ys)

/-- Python `astype(int)` on one expanded row. -/
def parseRow (e : PRow) : Except PyErr IRow :=
  match parseIntL e.lvl with
  | some z => Except.ok ⟨e.subj, z, e.size, e.mapv, e.stdv⟩
  | none => Except.error PyErr.valueError

/-- Lines 18-28 of `aggregate_data`: the fully expanded, parsed rows. -/
def parsedRows (rows : List CsvRow) : Except PyErr (List IRow) :=
  exceptMap parseRow (expandRows rows)

/-- The distinct (subject, level) group keys among rows whose subject is
present, in first-occurrence order; rows with a missing subject are dropped,
as pandas `groupby` drops `NaN` keys.  (pandas additionally sorts the group
keys; the claims here do not concern output ordering.) -/
def groupKeys (irows : List IRow) : List (List Char × Int) :=
  (irows.filterMap (fun e => e.subj.map (fun s => (s, e.lvl)))).dedup

/-- Membership of a row in the group of key `k`. -/
def keyMatches (k : List Char × Int) (e : IRow) : Bool :=
  e.subj == some k.1 && e.lvl == k.2

/-- The aggregation lambda (lines 32-36) applied to one group: size summed,
both measurement columns as size-weighted averages. -/
def aggGroup (k : List Char × Int) (g : List IRow) : AggRow :=
  ⟨k.1, k.2, (g.map (fun e => e.size)).sum,
    (g.map (fun e => e.size * e.mapv)).sum / (g.map (fun e => e.size)).sum,
    (g.map (fun e => e.size * e.stdv)).sum / (g.map (fun e => e.size)).sum⟩

/-- Embedding of `aggregate_data` (aggregate_chunks.py, lines 14-40),
excluding CSV (de)serialization: extract subjects, expand ':'-ranges, parse
levels (an unparseable level raises), group by (subject, level) dropping
missing subjects, and aggregate each group. -/
def aggregate_data (rows : List CsvRow) : Except PyErr (List AggRow) :=
  match parsedRows rows with
  | Except.error e => Except.error e
  | Except.ok irows =>
    Except.ok ((groupKeys irows).map
      (fun k => aggGroup k (irows.filter (keyMatches k))))

/-! ## Claims C7 and C10 : the aggregation utility -/

theorem exceptMap_ok_mem {f : PRow → Except PyErr IRow} {xs : List PRow}
    {ys : List IRow} (h : exceptMap f xs = Except.ok ys) :
    (∀ y ∈ ys, ∃ x ∈ xs, f x = Except.ok y) ∧
    (∀ x ∈ xs, ∃ y ∈ ys, f x = Except.ok y) := by
  induction xs generalizing ys with
  | nil =>
    simp only [exceptMap] at h
    injection h with h'
    subst h'
    exact ⟨by simp, by simp⟩
  | cons x xs ih =>
    simp only [exceptMap] at h
    cases hfx : f x with
    | error e => rw [hfx] at h; cases h
    | ok y =>
      rw [hfx] at h
      cases hrest : exceptMap f xs with
      | error e => rw [hrest] at h; cases h
      | ok ys' =>
        rw [hrest] at h
        injection h with h'
        subst h'
        obtain ⟨ih1, ih2⟩ := ih hrest
        constructor
        · intro z hz
          rcases List.mem_cons.mp hz with rfl | hz'
          · exact ⟨x, by simp, hfx⟩
          · obtain ⟨x', hx', hfx'⟩ := ih1 z hz'
            exact ⟨x', by simp [hx'], hfx'⟩
        · intro x' hx'
          rcases List.mem_cons.mp hx' with rfl | hx''
          · exact ⟨y, by simp, hfx⟩
          · obtain ⟨y', hy', hfy'⟩ := ih2 x' hx''
            exact ⟨y', by simp [hy'], hfy'⟩

theorem exceptMap_ok_of_parse {xs : List PRow}
    (h : ∀ x ∈ xs, (parseIntL x.lvl).isSome = true) :
    ∃ ys, exceptMap parseRow xs = Except.ok ys := by
  induction xs with
  | nil => exact ⟨[], rfl⟩
  | cons x xs ih =>
    obtain ⟨ys, hys⟩ := ih (fun x' hx' => h x' (by simp [hx']))
    have hx := h x (by simp)
    cases hp : parseIntL x.lvl with
    | none => rw [hp] at hx; cases hx
    | some z =>
      refine ⟨⟨x.subj, z, x.size, x.mapv, x.stdv⟩ :: ys, ?_⟩
      simp only [exceptMap, parseRow, hp, hys]

theorem parseRow_ok_fields {x : PRow} {y : IRow} (h : parseRow x = Except.ok y) :
    y.subj = x.subj ∧ parseIntL x.lvl = some y.lvl := by
  unfold parseRow at h
  cases hp : parseIntL x.lvl with
  | none => rw [hp] at h; cases h
  | some z =>
    rw [hp] at h
    injection h with h'
    subst h'
    exact ⟨rfl, rfl⟩

theorem mem_expandRows {rows : List CsvRow} {pr : PRow} :
    pr ∈ expandRows rows ↔
      ∃ r ∈ rows, ∃ p ∈ splitOnL (str ":") r.vertLevel,
        pr = ⟨findSub r.filename, p, r.size, r.mapv, r.stdv⟩ := by
  simp only [expandRows, List.mem_flatMap, List.mem_map]
  constructor
  · rintro ⟨r, hr, p, hp, rfl⟩
    exact ⟨r, hr, p, hp, rfl⟩
  · rintro ⟨r, hr, p, hp, rfl⟩
    exact ⟨r, hr, p, hp, rfl⟩

theorem mem_groupKeys {irows : List IRow} {s : List Char} {l : Int} :
    (s, l) ∈ groupKeys irows ↔ ∃ e ∈ irows, e.subj = some s ∧ e.lvl = l := by
  simp only [groupKeys, List.mem_dedup, List.mem_filterMap, Option.map_eq_some']
  constructor
  · rintro ⟨e, he, s', hs', heq⟩
    injection heq with h1 h2
    exact ⟨e, he, by rw [hs', h1], h2⟩
  · rintro ⟨e, he, hs, hl⟩
    exact ⟨e, he, s, hs, by rw [hl]⟩

/-- Claim C7 : The aggregation produces exactly one output row per
(subject, vertebral level) pair: the output keys are pairwise distinct; a
pair appears exactly when some input row's filename yields that subject and
some ':'-separated component of its vertebral-level value parses to that
level (ranges encoded as delimited pairs are expanded one row per listed
level); and each output row carries the sum of the sizes of its group and
the size-weighted average of each of the two measurement columns over its
group. -/
theorem c7_aggregation (rows : List CsvRow) (irows : List IRow) (out : List AggRow)
    (hp : parsedRows rows = Except.ok irows)
    (hout : aggregate_data rows = Except.ok out) :
    (out.map (fun a => (a.subject, a.level))).Nodup ∧
    (∀ s l, (s, l) ∈ out.map (fun a => (a.subject, a.level)) ↔
      ∃ r ∈ rows, findSub r.filename = some s ∧
        ∃ p ∈ splitOnL (str ":") r.vertLevel, parseIntL p = some l) ∧
    (∀ a ∈ out,
      a.size = ((irows.filter (keyMatches (a.subject, a.level))).map
          (fun e => e.size)).sum ∧
      a.mapv = ((irows.filter (keyMatches (a.subject, a.level))).map
            (fun e => e.size * e.mapv)).sum
          / ((irows.filter (keyMatches (a.subject, a.level))).map
            (fun e => e.size)).sum ∧
      a.stdv = ((irows.filter (keyMatches (a.subject, a.level))).map
            (fun e => e.size * e.stdv)).sum
          / ((irows.filter (keyMatches (a.subject, a.level))).map
            (fun e => e.size)).sum) := by
  have hout' : out = (groupKeys irows).map
      (fun k => aggGroup k (irows.filter (keyMatches k))) := by
    rw [aggregate_data, hp] at hout
    injection hout with h'
    exact h'.symm
  have hkeys : out.map (fun a => (a.subject, a.level)) = groupKeys irows := by
    rw [hout', List.map_map]
    have : ((fun a : AggRow => (a.subject, a.level))
          ∘ (fun k => aggGroup k (irows.filter (keyMatches k))))
        = fun k : List Char × Int => k := by
      funext k
      rfl
    rw [this, List.map_id']
  refine ⟨?_, ?_, ?_⟩
  · rw [hkeys]
    exact List.nodup_dedup _
  · intro s l
    rw [hkeys, mem_groupKeys]
    constructor
    · rintro ⟨e, he, hs, hl⟩
      obtain ⟨pr, hpr, hpe⟩ := (exceptMap_ok_mem hp).1 e he
      obtain ⟨hsubj, hlvl⟩ := parseRow_ok_fields hpe
      obtain ⟨r, hr, p, hpmem, rfl⟩ := mem_expandRows.mp hpr
      refine ⟨r, hr, ?_, p, hpmem, ?_⟩
      · exact hsubj.symm.trans hs
      · exact hlvl.trans (by rw [hl])
    · rintro ⟨r, hr, hfs, p, hpmem, hpl⟩
      have hpr : (⟨findSub r.filename, p, r.size, r.mapv, r.stdv⟩ : PRow)
          ∈ expandRows rows := mem_expandRows.mpr ⟨r, hr, p, hpmem, rfl⟩
      obtain ⟨e, he, hpe⟩ := (exceptMap_ok_mem hp).2 _ hpr
      obtain ⟨hsubj, hlvl⟩ := parseRow_ok_fields hpe
      refine ⟨e, he, ?_, ?_⟩
      · exact hsubj.trans hfs
      · exact Option.some.inj ((Eq.symm hlvl).trans hpl)
  · intro a ha
    rw [hout'] at ha
    obtain ⟨k, _, rfl⟩ := List.mem_map.mp ha
    exact ⟨rfl, rfl, rfl⟩

/-- Concrete input for the C7 witness: one row whose level "2:3" encodes a
range. -/
def c7rows : List CsvRow := [⟨str "x/sub-A_f", str "2:3", 1, 2, 3⟩]

/-- Its expanded, parsed rows. -/
def c7irows : List IRow :=
  [⟨some (str "sub-A"), 2, 1, 2, 3⟩, ⟨some (str "sub-A"), 3, 1, 2, 3⟩]

/-- Witness for C7: on `c7rows` the output keys are distinct and the range
"2:3" contributes one row per listed level. -/
theorem c7_aggregation_witness :
    (((groupKeys c7irows).map
        (fun k => aggGroup k (c7irows.filter (keyMatches k)))).map
      (fun a => (a.subject, a.level))).Nodup ∧
    (str "sub-A", (2 : Int)) ∈ ((groupKeys c7irows).map
        (fun k => aggGroup k (c7irows.filter (keyMatches k)))).map
      (fun a => (a.subject, a.level)) ∧
    (str "sub-A", (3 : Int)) ∈ ((groupKeys c7irows).map
        (fun k => aggGroup k (c7irows.filter (keyMatches k)))).map
      (fun a => (a.subject, a.level)) := by
  have h := c7_aggregation c7rows c7irows
    ((groupKeys c7irows).map (fun k => aggGroup k (c7irows.filter (keyMatches k))))
    (by decide) (by rw [aggregate_data, show parsedRows c7rows = Except.ok c7irows by decide])
  refine ⟨h.1, ?_, ?_⟩
  · exact (h.2.1 (str "sub-A") 2).mpr
      ⟨⟨str "x/sub-A_f", str "2:3", 1, 2, 3⟩, by simp [c7rows], by decide,
        str "2", by decide, by decide⟩
  · exact (h.2.1 (str "sub-A") 3).mpr
      ⟨⟨str "x/sub-A_f", str "2:3", 1, 2, 3⟩, by simp [c7rows], by decide,
        str "3", by decide, by decide⟩

theorem expandRows_filter (rows : List CsvRow) :
    expandRows (rows.filter (fun r => (findSub r.filename).isSome))
      = (expandRows rows).filter (fun pr => pr.subj.isSome) := by
  induction rows with
  | nil => rfl
  | cons r rest ih =>
    rw [show expandRows (r :: rest)
        = (splitOnL (str ":") r.vertLevel).map
            (fun p => (⟨findSub r.filename, p, r.size, r.mapv, r.stdv⟩ : PRow))
          ++ expandRows rest from rfl]
    rw [List.filter_append, List.filter_map]
    by_cases hk : (findSub r.filename).isSome = true
    · rw [List.filter_cons, if_pos (by simpa using hk)]
      rw [show expandRows (r :: rest.filter (fun r => (findSub r.filename).isSome))
          = (splitOnL (str ":") r.vertLevel).map
              (fun p => (⟨findSub r.filename, p, r.size, r.mapv, r.stdv⟩ : PRow))
            ++ expandRows (rest.filter (fun r => (findSub r.filename).isSome)) from rfl]
      rw [ih]
      congr 1
      rw [List.filter_eq_self.mpr]
      intro p _
      simpa using hk
    · rw [Bool.not_eq_true] at hk
      rw [List.filter_cons, if_neg (by simp [hk]), ih]
      rw [show ((splitOnL (str ":") r.vertLevel).filter
          ((fun pr : PRow => pr.subj.isSome)
            ∘ (fun p => (⟨findSub r.filename, p, r.size, r.mapv, r.stdv⟩ : PRow))))
          = [] from List.filter_eq_nil_iff.mpr (fun p _ => by simp [hk])]
      rfl

theorem exceptMap_filter {xs : List PRow} {ys : List IRow}
    (h : exceptMap parseRow xs = Except.ok ys) :
    exceptMap parseRow (xs.filter (fun pr => pr.subj.isSome))
      = Except.ok (ys.filter (fun e => e.subj.isSome)) := by
  induction xs generalizing ys with
  | nil =>
    simp only [exceptMap] at h
    injection h with h'
    subst h'
    rfl
  | cons x xs ih =>
    simp only [exceptMap] at h
    cases hfx : parseRow x with
    | error e => rw [hfx] at h; cases h
    | ok y =>
      rw [hfx] at h
      cases hrest : exceptMap parseRow xs with
      | error e => rw [hrest] at h; cases h
      | ok ys' =>
        rw [hrest] at h
        injection h with h'
        subst h'
        have hsubj : y.subj = x.subj := (parseRow_ok_fields hfx).1
        by_cases hx : x.subj.isSome = true
        · rw [List.filter_cons, if_pos (by simpa using hx),
            List.filter_cons, if_pos (by simp [hsubj, hx])]
          simp only [exceptMap, hfx, ih hrest]
        · rw [Bool.not_eq_true] at hx
          rw [List.filter_cons, if_neg (by simp [hx]),
            List.filter_cons, if_neg (by simp [hsubj, hx]), ih hrest]

theorem groupKeys_filter (ys : List IRow) :
    groupKeys (ys.filter (fun e => e.subj.isSome)) = groupKeys ys := by
  unfold groupKeys
  congr 1
  induction ys with
  | nil => rfl
  | cons e ys ih =>
    cases he : e.subj with
    | none =>
      rw [List.filter_cons, if_neg (by simp [he])]
      rw [show (e :: ys).filterMap (fun e => e.subj.map (fun s => (s, e.lvl)))
          = ys.filterMap (fun e => e.subj.map (fun s => (s, e.lvl))) by
        rw [List.filterMap_cons, he]
        simp]
      exact ih
    | some s =>
      rw [List.filter_cons, if_pos (by simp [he])]
      rw [List.filterMap_cons, List.filterMap_cons, he]
      simp only [Option.map_some']
      rw [ih]

theorem filter_keyMatches (ys : List IRow) (k : List Char × Int) :
    (ys.filter (fun e => e.subj.isSome)).filter (keyMatches k)
      = ys.filter (keyMatches k) := by
  induction ys with
  | nil => rfl
  | cons e ys ih =>
    by_cases hq : e.subj.isSome = true
    · rw [List.filter_cons, if_pos (by simpa using hq)]
      by_cases hk : keyMatches k e = true
      · rw [List.filter_cons, if_pos (by simpa using hk),
          List.filter_cons, if_pos (by simpa using hk), ih]
      · rw [Bool.not_eq_true] at hk
        rw [List.filter_cons, if_neg (by simp [hk]),
          List.filter_cons, if_neg (by simp [hk]), ih]
    · rw [Bool.not_eq_true] at hq
      have hnone : e.subj = none := Option.not_isSome_iff_eq_none.mp (by simp [hq])
      have hk : keyMatches k e = false := by
        simp [keyMatches, hnone]
      rw [List.filter_cons, if_neg (by simp [hq]),
        List.filter_cons, if_neg (by simp [hk]), ih]

theorem findSub_none_iff (s : List Char) :
    findSub s = none ↔
      ¬∃ u v c, s = u ++ str "sub-" ++ (c :: v) ∧ subjChar c = true := by
  induction s with
  | nil =>
    simp only [findSub, true_iff]
    rintro ⟨u, v, c, hu, _⟩
    have hlen := congrArg List.length hu
    simp only [List.length_nil, List.length_append, List.length_cons] at hlen
    have h4 : (str "sub-").length = 4 := by decide
    omega
  | cons c0 rest ih =>
    by_cases hcond : (isPre (str "sub-") (c0 :: rest)
        && !(((c0 :: rest).drop 4).takeWhile subjChar).isEmpty) = true
    · rw [show findSub (c0 :: rest) = some (str "sub-"
          ++ ((c0 :: rest).drop 4).takeWhile subjChar) by
        simp only [findSub, hcond, if_true]]
      rw [Bool.and_eq_true] at hcond
      obtain ⟨t, ht⟩ := (isPre_iff _ _).mp hcond.1
      have hdrop : (c0 :: rest).drop 4 = t := by
        rw [ht, show (4 : Nat) = (str "sub-").length by decide, List.drop_left]
      have hex : ∃ u v c, (c0 :: rest) = u ++ str "sub-" ++ (c :: v)
          ∧ subjChar c = true := by
        cases hth : t with
        | nil =>
          exfalso
          have h2 := hcond.2
          rw [hdrop, hth] at h2
          simp at h2
        | cons c v =>
          have hsc : subjChar c = true := by
            have h2 := hcond.2
            rw [hdrop, hth] at h2
            by_contra hsc
            rw [Bool.not_eq_true] at hsc
            rw [List.takeWhile_cons, hsc] at h2
            simp at h2
          exact ⟨[], v, c, by rw [ht, hth]; simp, hsc⟩
      constructor
      · intro h
        exact absurd h (by simp)
      · intro hno
        exact absurd hex hno
    · rw [Bool.not_eq_true] at hcond
      rw [show findSub (c0 :: rest) = findSub rest by
        simp only [findSub, hcond]
        simp]
      rw [ih]
      constructor
      · intro hno ⟨u, v, c, hu, hsc⟩
        apply hno
        cases u with
        | nil =>
          exfalso
          simp only [List.nil_append] at hu
          have hpre : isPre (str "sub-") (c0 :: rest) = true :=
            (isPre_iff _ _).mpr ⟨c :: v, hu⟩
          have hdrop : (c0 :: rest).drop 4 = c :: v := by
            rw [hu, show (4 : Nat) = (str "sub-").length by decide, List.drop_left]
          rw [hpre, hdrop, List.takeWhile_cons, hsc] at hcond
          simp at hcond
        | cons u0 us =>
          rw [show (u0 :: us) ++ str "sub-" ++ (c :: v)
              = u0 :: (us ++ str "sub-" ++ (c :: v)) by simp] at hu
          injection hu with _ h2
          exact ⟨us, v, c, h2, hsc⟩
      · intro hno ⟨u, v, c, hu, hsc⟩
        exact hno ⟨c0 :: u, v, c, by rw [hu]; simp, hsc⟩

/-- Claim C10 : An input row whose filename contains no token matching the
`sub-[^_/]+` convention receives a missing subject value (`findSub` is
`none` exactly when no position of the filename matches the regex), and such
rows are silently excluded from the aggregated output: the aggregation of
any input equals the aggregation of its rows restricted to those with a
present subject, because grouping drops missing group keys. -/
theorem c10_missing_subject_rows_dropped :
    (∀ s : List Char, findSub s = none ↔
      ¬∃ u v c, s = u ++ str "sub-" ++ (c :: v) ∧ subjChar c = true) ∧
    (∀ rows : List CsvRow,
      (∀ r ∈ rows, ∀ p ∈ splitOnL (str ":") r.vertLevel,
        (parseIntL p).isSome = true) →
      aggregate_data rows
        = aggregate_data (rows.filter (fun r => (findSub r.filename).isSome))) := by
  refine ⟨findSub_none_iff, ?_⟩
  intro rows hp
  have hparse : ∀ x ∈ expandRows rows, (parseIntL x.lvl).isSome = true := by
    intro x hx
    obtain ⟨r, hr, p, hpmem, rfl⟩ := mem_expandRows.mp hx
    exact hp r hr p hpmem
  obtain ⟨ys, hys⟩ := exceptMap_ok_of_parse hparse
  have h1 : parsedRows rows = Except.ok ys := hys
  have h2 : parsedRows (rows.filter (fun r => (findSub r.filename).isSome))
      = Except.ok (ys.filter (fun e => e.subj.isSome)) := by
    rw [parsedRows, expandRows_filter]
    exact exceptMap_filter hys
  simp only [aggregate_data, h1, h2]
  rw [groupKeys_filter]
  have : (fun k => aggGroup k ((ys.filter (fun e => e.subj.isSome)).filter
        (keyMatches k)))
      = fun k => aggGroup k (ys.filter (keyMatches k)) := by
    funext k
    rw [filter_keyMatches]
  rw [this]

/-- Concrete input for the C10 witness: the first row's filename has no
`sub-` token. -/
def c10rows : List CsvRow :=
  [⟨str "nosub", str "2", 5, 1, 1⟩, ⟨str "sub-B_x", str "2", 1, 2, 3⟩]

/-- Witness for C10: the no-subject row is silently dropped. -/
theorem c10_missing_subject_witness :
    aggregate_data c10rows
      = aggregate_data (c10rows.filter (fun r => (findSub r.filename).isSome)) :=
  c10_missing_subject_rows_dropped.2 c10rows (by decide)

end SpinePark
